import Mathlib

set_option maxHeartbeats 1000000

/-!
Shallow embedding of the inclusion-resolution engine of
`djangorestframework-inclusions` (files `rest_framework_inclusions/core.py`,
`rest_framework_inclusions/data_inclusion.py`,
`rest_framework_inclusions/renderer.py`).

Modelling conventions used throughout:

* Rendered (JSON-compatible) values are the inductive `Val`.
* A dotted data-path string `"a.b.c"` is modelled as its list of segments
  `["a", "b", "c"]`; `path.split(".")[0]` becomes the head of the list and
  `data_path.split(".", 1)` becomes head/tail.  All paths arising from the
  code are non-empty.
* Python dictionaries are association lists; key lookup is first-match
  (insertion in the embedding never produces duplicate keys unless the
  source code itself would).
* Python exceptions (`KeyError`, `TypeError`, `AssertionError`,
  `ValueError`) are modelled with `Except String`.
* Python object identity (the `is` operator, and membership/removal on
  lists of objects, which use identity-based `==` for these classes) is
  modelled by tagging objects with an explicit identity `oid : Nat`.
  Django querysets and serializer classes are opaque handles (`Nat`),
  compared by identity exactly as the source does.
* The database / DRF serialization collaborators (fetching objects by pk
  and rendering them) are opaque environment functions, as the spec treats
  them ("an opaque object store", "an opaque function from an object to a
  structured value").
-/

/-- JSON-compatible rendered values produced by serializers. -/
inductive Val where
  | vnull
  | vint (n : Int)
  | vstr (s : String)
  | vlist (items : List Val)
  | vobj (fields : List (String × Val))
deriving Repr

/-- A dotted data path, as its list of `.`-separated segments. -/
abbrev DataPath := List String

namespace DataInclusion

/-!  ## `data_inclusion.get_pks`  -/

mutual

/-- Embedding of `data_inclusion.get_pks(serializer_data, data_path)`.
`Val.vnull` is Python `None`; a `vlist` recurses per element and
concatenates; a `vobj` consumes path segments (`KeyError` on a missing
key); any scalar payload is the `TypeError` of subscripting a non-mapping.
The `[]` path case is unreachable from dotted strings (which always split
into at least one segment). -/
def get_pks : Val → DataPath → Except String (List Val)
  | .vnull, _ => .ok []
  | .vlist items, path => get_pks_list items path
  | .vobj fields, path =>
    match path with
    | [] => .error "invalid empty data path"
    | [key] =>
      match fields.lookup key with
      | none => .error "KeyError"
      | some (.vlist xs) => .ok xs
      | some v => .ok [v]
    | first_key :: remainder =>
      match fields.lookup first_key with
      | none => .error "KeyError"
      | some v => get_pks v remainder
  | .vint _, _ => .error "TypeError"
  | .vstr _, _ => .error "TypeError"

/-- The `for dct in serializer_data: pks += get_pks(dct, data_path)` loop of
`get_pks` on a list payload. -/
def get_pks_list : List Val → DataPath → Except String (List Val)
  | [], _ => .ok []
  | v :: vs, path => do
    let a ← get_pks v path
    let b ← get_pks_list vs path
    return a ++ b

end

/-!  ## `data_inclusion.sort_key`  -/

/-- Embedding of `data_inclusion.sort_key(item)`: the rendered `id` field if
present, else `pk`, else `ValueError`.  (Note: unlike `core.sort_key`, this
function has no `url` fallback.) -/
def sort_key (item : List (String × Val)) : Except String Val :=
  match item.lookup "id" with
  | some v => .ok v
  | none =>
    match item.lookup "pk" with
    | some v => .ok v
    | none =>
      .error "Item does not contain a reference to the 'id'. Please included it in the serializer."

end DataInclusion

namespace Core

/-- Embedding of `core.sort_key(item)`: `id`, else `pk`, else `url`, else
`ValueError`. -/
def sort_key (item : List (String × Val)) : Except String Val :=
  match item.lookup "id" with
  | some v => .ok v
  | none =>
    match item.lookup "pk" with
    | some v => .ok v
    | none =>
      match item.lookup "url" with
      | some v => .ok v
      | none =>
        .error "Item does not contain a reference to the 'id'. Please included it in the serializer."

/-!  ## The request-path walker (`core.InclusionLoader`)

Model instances are finite objects: a model label, a primary key, and
named attributes as the relevant `get_attribute` calls observe them.
Serializer instances are inline structures; `inclusion_serializers`
entries are string references resolved through the environment (allowing
the cyclic schemas the source supports via `import_string`), so the walk
carries a fuel parameter. -/

mutual

/-- A Django model instance as the walker observes it. -/
inductive CObj where
  | mk (label : String) (pk : Option Int) (attrs : List (String × CAttr))

/-- What `field.get_attribute(instance)` returns for an attribute:
`skipped` models a raised `SkipField`; `anull` is `None`; `aobj` a single
related instance; `aobjs` an iterable of instances (queryset cache, list
or manager collapsed to its elements); `apk` a DRF `PKOnlyObject`
together with the full instance that
`super(RelatedField, field).get_attribute` promotes it to. -/
inductive CAttr where
  | skipped
  | anull
  | aobj (o : CObj)
  | aobjs (os : List CObj)
  | apk (pk : Option Int) (full : CObj)

end

/-- The model label of an instance (`obj._meta.label` alias
`obj.__class__._meta.label`). -/
def CObj.label : CObj → String
  | .mk l _ _ => l

/-- The primary key of an instance. -/
def CObj.pk : CObj → Option Int
  | .mk _ p _ => p

/-- Attribute access on an instance. -/
def CObj.attr (o : CObj) (name : String) : Option CAttr :=
  match o with
  | .mk _ _ attrs => attrs.lookup name

mutual

/-- A serializer instance: either a `ListSerializer` wrapping a child, or
a plain serializer with ordered fields and its `inclusion_serializers`
mapping (values are string references into the environment). -/
inductive CSer where
  | listSer (child : CSer)
  | ser (fields : List (String × CField)) (inclusion_serializers : List (String × String))

/-- A serializer field as the walker classifies it. -/
inductive CField where
  | sub (s : CSer)
  | pkRel
  | hyperRel
  | manyRel
  | other

end

/-- Environment for the walker: resolution of inclusion-serializer
references, the `Meta.model._meta.label` of such a serializer class, and
the opaque rendering `inclusion_serializer(instance=obj, …).data`. -/
structure CEnv where
  resolveSer : String → CSer
  serModelLabel : String → String
  renderWith : String → CObj → Val

/-- A seen-set entry: `(model label, pk)`. -/
abbrev SeenEntry := String × Option Int

/-- An emitted inclusion entry: the related object and the
inclusion-serializer reference it will be rendered with. -/
abbrev CEntry := CObj × String

/-- Loader configuration: `allowed_paths` (`none` is the universal
sentinel) and the `nested_inclusions_use_complete_path` class flag. -/
structure CCfg where
  allowed_paths : Option (List (List String))
  nested_inclusions_use_complete_path : Bool

/-- Embedding of `InclusionLoader._has_been_seen`: test-and-add on the
seen-set. -/
def hasBeenSeen (seen : List SeenEntry) (obj : CObj) :
    Bool × List SeenEntry :=
  let entry : SeenEntry := (obj.label, obj.pk)
  if entry ∈ seen then (true, seen) else (false, entry :: seen)

mutual

/-- Embedding of `_instance_inclusions`: walk the serializer's fields in
order, threading the seen-set, concatenating the per-field entries.
Every recursive call in this mutual block consumes one unit of fuel
(`0` models exhaustion); the claims quantify over all fuel values. -/
def instanceInclusions (cfg : CCfg) (env : CEnv) :
    Nat → List String → List (String × CField) → List (String × String) →
    Option CObj → List SeenEntry →
    Except String (List CEntry × List SeenEntry)
  | 0, _, _, _, _, _ => .error "recursion limit"
  | _ + 1, _, [], _, _, seen => .ok ([], seen)
  | fuel + 1, path, (name, fld) :: rest, inclSers, inst, seen => do
    let (here, seen1) ← fieldInclusions cfg env fuel path name fld inclSers inst seen
    let (there, seen2) ← instanceInclusions cfg env fuel path rest inclSers inst seen1
    return (here ++ there, seen2)

/-- Embedding of `_field_inclusions`: nothing for a `None` instance;
recurse into nested sub-serializers; for other fields, look up the
declared inclusion serializer (nothing when absent) and emit the
related objects, recursing under each emitted object with the parent's
path (unless `nested_inclusions_use_complete_path`). -/
def fieldInclusions (cfg : CCfg) (env : CEnv) :
    Nat → List String → String → CField → List (String × String) →
    Option CObj → List SeenEntry →
    Except String (List CEntry × List SeenEntry)
  | 0, _, _, _, _, _, _ => .error "recursion limit"
  | fuel + 1, path, name, fld, inclSers, inst, seen =>
    match inst with
    | none => .ok ([], seen)
    | some obj =>
      let new_path := path ++ [name]
      match fld with
      | .sub s => subSerializerInclusions cfg env fuel new_path s name obj seen
      | _ =>
        match inclSers.lookup name with
        | none => .ok ([], seen)
        | some serRef =>
          relatedFieldInclusions cfg env fuel new_path name fld obj serRef seen

/-- Embedding of `_some_related_field_inclusions` fused with the
consuming loop in `_field_inclusions` (the source's generators are lazy,
so the per-object seen checks interleave with the nested recursion under
the previously emitted object). -/
def relatedFieldInclusions (cfg : CCfg) (env : CEnv) :
    Nat → List String → String → CField → CObj → String → List SeenEntry →
    Except String (List CEntry × List SeenEntry)
  | 0, _, _, _, _, _, _ => .error "recursion limit"
  | fuel + 1, new_path, name, fld, obj, serRef, seen =>
    if cfg.allowed_paths.isSome ∧ new_path ∉ cfg.allowed_paths.getD [] then
      .ok ([], seen)
    else
      match fld with
      | .pkRel => pkRelatedInclusions cfg env fuel new_path name obj serRef seen
      | .hyperRel => pkRelatedInclusions cfg env fuel new_path name obj serRef seen
      | .manyRel =>
        match obj.attr name with
        | some (.aobjs os) => manyRelatedLoop cfg env fuel new_path os serRef seen
        | _ => .error "TypeError"
      | _ => .error "Trying to include unknown field type"

/-- Embedding of `_primary_key_related_field_inclusions` fused with its
consumer: `None` objects and `None` pks yield nothing; a `PKOnlyObject`
first checks the seen-set under the inclusion serializer's model label
without adding, then promotes to the full instance; the final
`_has_been_seen` guards (and records) the emission; an emitted object is
followed by the nested walk under it. -/
def pkRelatedInclusions (cfg : CCfg) (env : CEnv) :
    Nat → List String → String → CObj → String → List SeenEntry →
    Except String (List CEntry × List SeenEntry)
  | 0, _, _, _, _, _ => .error "recursion limit"
  | fuel + 1, new_path, name, obj, serRef, seen =>
    match obj.attr name with
    | none => .error "AttributeError"
    | some .skipped => .error "SkipField"
    | some .anull => .ok ([], seen)
    | some (.aobjs _) => .error "TypeError"
    | some (.aobj o) =>
      match o.pk with
      | none => .ok ([], seen)
      | some _ =>
        emitAndRecurse cfg env fuel new_path o serRef seen
    | some (.apk pk full) =>
      match pk with
      | none => .ok ([], seen)
      | some p =>
        if ((env.serModelLabel serRef, some p) : SeenEntry) ∈ seen then
          .ok ([], seen)
        else
          emitAndRecurse cfg env fuel new_path full serRef seen

/-- The shared tail of an emission: test-and-record in the seen-set;
if fresh, yield `(obj, serializer)` and recurse into the target
serializer under the object, based at the parent's path
(`new_path[:-1]`) unless the complete-path flag is set. -/
def emitAndRecurse (cfg : CCfg) (env : CEnv) :
    Nat → List String → CObj → String → List SeenEntry →
    Except String (List CEntry × List SeenEntry)
  | 0, _, _, _, _ => .error "recursion limit"
  | fuel + 1, new_path, o, serRef, seen =>
    match hasBeenSeen seen o with
    | (true, seen1) => .ok ([], seen1)
    | (false, seen1) =>
      let nested_path :=
        if cfg.nested_inclusions_use_complete_path then new_path
        else new_path.dropLast
      match env.resolveSer serRef with
      | .ser fs incl => do
        let (there, seen2) ←
          instanceInclusions cfg env fuel nested_path fs incl (some o) seen1
        return ((o, serRef) :: there, seen2)
      | .listSer _ => .error "unexpected list serializer instance"

/-- The `for obj in field.get_attribute(instance)` loop of
`_many_related_field_inclusions`, fused with its consumer. -/
def manyRelatedLoop (cfg : CCfg) (env : CEnv) :
    Nat → List String → List CObj → String → List SeenEntry →
    Except String (List CEntry × List SeenEntry)
  | 0, _, _, _, _ => .error "recursion limit"
  | _ + 1, _, [], _, seen => .ok ([], seen)
  | fuel + 1, new_path, o :: os, serRef, seen => do
    let (here, seen1) ← emitAndRecurse cfg env fuel new_path o serRef seen
    let (there, seen2) ← manyRelatedLoop cfg env fuel new_path os serRef seen1
    return (here ++ there, seen2)

/-- Embedding of `_sub_serializer_inclusions`: a raised `SkipField` is
caught (nothing emitted); a `ListSerializer` field iterates the
collection with the child serializer; otherwise recurse into the nested
serializer with the sub-instance. -/
def subSerializerInclusions (cfg : CCfg) (env : CEnv) :
    Nat → List String → CSer → String → CObj → List SeenEntry →
    Except String (List CEntry × List SeenEntry)
  | 0, _, _, _, _, _ => .error "recursion limit"
  | fuel + 1, path, s, name, obj, seen =>
    match obj.attr name with
    | none => .error "AttributeError"
    | some .skipped => .ok ([], seen)
    | some a =>
      match s with
      | .listSer child =>
        match a with
        | .aobjs os => listInclusions cfg env fuel path child os seen
        | _ => .error "TypeError"
      | .ser fs incl =>
        match a with
        | .anull => instanceInclusions cfg env fuel path fs incl none seen
        | .aobj o => instanceInclusions cfg env fuel path fs incl (some o) seen
        | _ => .error "TypeError"

/-- Embedding of `_list_inclusions`: per element of the collection, walk
the child serializer. -/
def listInclusions (cfg : CCfg) (env : CEnv) :
    Nat → List String → CSer → List CObj → List SeenEntry →
    Except String (List CEntry × List SeenEntry)
  | 0, _, _, _, _ => .error "recursion limit"
  | _ + 1, _, _, [], seen => .ok ([], seen)
  | fuel + 1, path, child, o :: os, seen =>
    match child with
    | .listSer _ => .error "unexpected list serializer child"
    | .ser fs incl => do
      let (here, seen1) ← instanceInclusions cfg env fuel path fs incl (some o) seen
      let (there, seen2) ← listInclusions cfg env fuel path child os seen1
      return (here ++ there, seen2)

end

/-- The shape of `serializer.instance` for the top-level `_inclusions`
dispatch. -/
inductive CInstance where
  | one (o : Option CObj)
  | many (os : List CObj)

/-- Embedding of `_inclusions((), serializer, serializer.instance)`. -/
def inclusions (cfg : CCfg) (env : CEnv) (fuel : Nat) (ser : CSer)
    (inst : CInstance) (seen : List SeenEntry) :
    Except String (List CEntry × List SeenEntry) :=
  match ser, inst with
  | .listSer child, .many os => listInclusions cfg env fuel [] child os seen
  | .ser fs incl, .one o => instanceInclusions cfg env fuel [] fs incl o seen
  | _, _ => .error "Unknown serializer"

/-- The result-building loop of `inclusions_dict`:
`result.setdefault(model_key, []).append(data)` per entry, in order. -/
def buildResult (env : CEnv) : List (String × List Val) → List CEntry →
    List (String × List Val)
  | acc, [] => acc
  | acc, (obj, serRef) :: rest =>
    let key := obj.label
    let data := env.renderWith serRef obj
    let acc' :=
      if (acc.lookup key).isSome then
        acc.map (fun kv => if kv.1 = key then (kv.1, kv.2 ++ [data]) else kv)
      else
        acc ++ [(key, [data])]
    buildResult env acc' rest

/-- `sorted`-by-`core.sort_key` for the in-place sorts of
`inclusions_dict` (key extraction first, then a stable sort by key under
the opaque comparison `keyLe`). -/
def sortByKey (keyLe : Val → Val → Bool) (items : List Val) :
    Except String (List Val) := do
  let keyed ← items.mapM (fun item =>
    match item with
    | .vobj fields => do
      let k ← sort_key fields
      return (k, item)
    | _ => .error "TypeError")
  return (keyed.mergeSort (fun a b => keyLe a.1 b.1)).map (fun kv => kv.2)

/-- Embedding of `InclusionLoader.inclusions_dict(serializer)`: run the
walk with the fresh per-loader seen-set, bucket the rendered entries by
model key, and sort each bucket. -/
def inclusions_dict (cfg : CCfg) (env : CEnv) (keyLe : Val → Val → Bool)
    (fuel : Nat) (ser : CSer) (inst : CInstance) :
    Except String (List (String × List Val)) := do
  let (entries, _) ← inclusions cfg env fuel ser inst []
  let result := buildResult env [] entries
  result.mapM (fun kv => do
    let sortedList ← sortByKey keyLe kv.2
    return (kv.1, sortedList))

end Core

namespace DataInclusion

/-!  ## `InclusionDefinition` and its merge

Django querysets and serializer classes are opaque handles (`Nat`) compared
by identity, exactly as the source compares them with `is`.  The
environment `Env` supplies the collaborator behaviour the source gets from
Django / DRF.  -/

/-- A parsed `inclusion_path` string `"model_key:dotted.path"`. -/
abbrev IncPath := String × DataPath

/-- Collaborator environment: the opaque data-store and serialization
capabilities the engine calls out to (spec §6: "Data-store capability …
`fetch(type, id_set) -> [object]`" plus rendering).

* `serModelQS sc` — the handle of `sc.Meta.model._default_manager.all()`
  (one shared object per model, hence one handle);
* `qsLabel qs` — `qs.model._meta.label`, the `app_label.ModelName` string;
* `fetchRender qs sc pks` — `sc(instance=qs.filter(pk__in=pks), many=True).data`.
-/
structure Env where
  serModelQS : Nat → Nat
  qsLabel : Nat → String
  fetchRender : Nat → Nat → List Val → List Val

/-- A DRF relational field, reduced to what the engine reads from it:
whether it is a `ManyRelatedField`, and the queryset handle of the field
(`field.child_relation.queryset` for many, `field.queryset` otherwise),
`none` when the field is read-only.  `fid` is the field object's identity. -/
structure Fld where
  fid : Nat
  many : Bool
  qs : Option Nat
deriving DecidableEq, Repr

/-- Embedding of `InclusionDefinition.__init__`.  `oid` is the Python
object identity of the definition (fresh per constructed object); the
constructor's str-or-list `data_path` argument is modelled by callers
passing the resulting list directly. -/
structure InclusionDefinition where
  oid : Nat
  field : Fld
  serializer_class : Nat
  data_paths : List DataPath
  inclusion_path : Option IncPath
deriving DecidableEq, Repr

/-- Embedding of the `InclusionDefinition.queryset` property: the field's
queryset if set, else the fallback `serializer_class.Meta.model`'s default
manager queryset. -/
def InclusionDefinition.queryset (env : Env) (d : InclusionDefinition) : Nat :=
  match d.field.qs with
  | some qs => qs
  | none => env.serModelQS d.serializer_class

/-- Embedding of the `InclusionDefinition.model_key` property
(`queryset.model._meta.label`). -/
def InclusionDefinition.model_key (env : Env) (d : InclusionDefinition) : String :=
  env.qsLabel (d.queryset env)

/-- Embedding of the `InclusionDefinition.roots` property
(`path.split(".")[0]` per data path). -/
def InclusionDefinition.roots (d : InclusionDefinition) : List String :=
  d.data_paths.map (fun p => p.headD "")

/-- Embedding of `InclusionDefinition.is_mergeable_with`: no
`inclusion_path` on either side, identical queryset object, identical
serializer class. -/
def InclusionDefinition.is_mergeable_with (env : Env)
    (d other : InclusionDefinition) : Bool :=
  if d.inclusion_path.isSome || other.inclusion_path.isSome then false
  else if !(d.queryset env == other.queryset env) then false
  else if !(d.serializer_class == other.serializer_class) then false
  else true

/-- The predicate selecting `matching_defs` inside
`merge_inclusion_definitions`:
`_definition.is_mergeable_with(definition) and _definition is not definition`
(`is not` is oid inequality). -/
def matchPred (env : Env) (definition e : InclusionDefinition) : Bool :=
  e.is_mergeable_with env definition && !(e.oid == definition.oid)

/-- The loop of `merge_inclusion_definitions`: iterate over the original
`definitions` list while consuming occurrences from `inputs` (the
mutated copy).  Removing `definition` plus every member of
`matching_defs` from `inputs` is `(inputs.erase d).filter (not pred)`,
because `matching_defs` lists every occurrence satisfying the predicate
and each is removed once.  `fresh` supplies identities of the newly
constructed definitions (Python allocates fresh objects). -/
def mergeAux (env : Env) :
    List InclusionDefinition → List InclusionDefinition → Nat →
    List InclusionDefinition
  | [], _, _ => []
  | d :: rest, inputs, fresh =>
    if d ∈ inputs then
      let matching := inputs.filter (matchPred env d)
      let data_paths := d.data_paths ++ (matching.map (fun m => m.data_paths)).flatten
      let inputs' := (inputs.erase d).filter (fun e => !(matchPred env d e))
      { oid := fresh, field := d.field, serializer_class := d.serializer_class,
        data_paths := data_paths, inclusion_path := d.inclusion_path } ::
        mergeAux env rest inputs' (fresh + 1)
    else
      mergeAux env rest inputs fresh

/-- An upper bound on the identities in a definition list, used to model
allocation of fresh objects. -/
def maxOid (l : List InclusionDefinition) : Nat :=
  (l.map (fun d => d.oid)).foldr max 0

/-- Embedding of `merge_inclusion_definitions`. -/
def merge_inclusion_definitions (env : Env)
    (definitions : List InclusionDefinition) : List InclusionDefinition :=
  mergeAux env definitions definitions (maxOid definitions + 1)

/-!  ## `Inclusion`  -/

/-- Embedding of the `Inclusion` class.  The Python `pks` set is modelled
as a list with append for `set.update`; no engine operation observes
multiplicity or ordering of the set. -/
structure Inclusion where
  definition : InclusionDefinition
  serializer_class : Nat
  resolved : Bool
  pks : List Val
deriving Repr

/-- `Inclusion.__init__`: unresolved, empty pk set. -/
def Inclusion.init (d : InclusionDefinition) : Inclusion :=
  { definition := d, serializer_class := d.serializer_class,
    resolved := false, pks := [] }

/-- `Inclusion.add_objects` (`self.pks.update(pks)`; the int-wrapping
branch is subsumed by callers always passing lists of values). -/
def Inclusion.add_objects (inc : Inclusion) (pks : List Val) : Inclusion :=
  { inc with pks := inc.pks ++ pks }

/-- `Inclusion.resolve`. -/
def Inclusion.resolve (inc : Inclusion) (pks : List Val) : Inclusion :=
  { inc.add_objects pks with resolved := true }

/-- The `Inclusion.data` property: fetch the backing objects for the pk
set from the definition's queryset and render with the definition's
serializer class. -/
def Inclusion.data (env : Env) (inc : Inclusion) : List Val :=
  env.fetchRender (inc.definition.queryset env) inc.definition.serializer_class inc.pks

/-- The serialized form of an `inclusion_path` option, as the source
stores it (`"model_key:dotted.path"`).  `Inclusion.merge` sorts unresolved
inclusions by this string.  (`none` is mapped to `""`; in the engine every
unresolved inclusion carries a path, and Python would raise `TypeError`
when comparing `None` keys.) -/
def incPathStr : Option IncPath → String
  | none => ""
  | some (m, p) => m ++ ":" ++ String.intercalate "." p

/-- Keep the first occurrence of each key, preserving encounter order —
the iteration order of the `defaultdict` in `Inclusion.merge`. -/
def dedupKeepFirst (seen : List String) : List String → List String
  | [] => []
  | k :: rest =>
    if k ∈ seen then dedupKeepFirst seen rest
    else k :: dedupKeepFirst (k :: seen) rest

/-- The per-`inclusion_path` grouping of unresolved inclusions inside
`Inclusion.merge`: each consecutive group (after sorting by the path
string) asserts that no member carries pks yet and yields one fresh
unresolved inclusion built from the first member's definition. -/
def mergeUnresolvedGroups : List (List Inclusion) → Except String (List Inclusion)
  | [] => .ok []
  | g :: gs =>
    match g with
    | [] => mergeUnresolvedGroups gs
    | first :: _ =>
      if g.all (fun i => i.pks.isEmpty) then do
        let rest ← mergeUnresolvedGroups gs
        return Inclusion.init first.definition :: rest
      else .error "Unresolved inclusions is not expected to have data"

/-- The per-model-key body of `Inclusion.merge`: resolved members collapse
into one resolved inclusion with the union of their pk sets; unresolved
members are sorted and grouped by `inclusion_path` and grouped into fresh
unresolved inclusions. -/
def mergeOneKey (group : List Inclusion) : Except String (List Inclusion) := do
  let resolvedIncls := group.filter (fun i => i.resolved)
  let part1 : List Inclusion :=
    match resolvedIncls with
    | [] => []
    | first :: _ =>
      [Inclusion.resolve (Inclusion.init first.definition)
        ((resolvedIncls.map (fun i => i.pks)).flatten)]
  let unresolvedIncls := group.filter (fun i => !i.resolved)
  if unresolvedIncls.isEmpty then
    return part1
  else
    let sortedIncls := unresolvedIncls.mergeSort
      (fun a b => incPathStr a.definition.inclusion_path ≤ incPathStr b.definition.inclusion_path)
    let groups := sortedIncls.splitBy
      (fun a b => incPathStr a.definition.inclusion_path == incPathStr b.definition.inclusion_path)
    let part2 ← mergeUnresolvedGroups groups
    return part1 ++ part2

/-- The iteration over the model-key groups of `Inclusion.merge`. -/
def mergeKeys (env : Env) (inclusions : List Inclusion) :
    List String → Except String (List Inclusion)
  | [] => .ok []
  | key :: restKeys => do
    let group := inclusions.filter (fun i => i.definition.model_key env == key)
    let here ← mergeOneKey group
    let rest ← mergeKeys env inclusions restKeys
    return here ++ rest

/-- Embedding of `Inclusion.merge(*inclusions)`: group by model key in
first-encounter order, then merge each group. -/
def Inclusion.merge (env : Env) (inclusions : List Inclusion) :
    Except String (List Inclusion) :=
  mergeKeys env inclusions
    (dedupKeepFirst [] (inclusions.map (fun i => i.definition.model_key env)))

/-!  ## `extract_inclusions`  -/

/-- Append an entry to a `defaultdict(list)` bucket (`get_nested`). -/
def addNested (acc : List (String × List DataPath)) (root : String)
    (rest : DataPath) : List (String × List DataPath) :=
  if (acc.lookup root).isSome then
    acc.map (fun kv => if kv.1 = root then (kv.1, kv.2 ++ [rest]) else kv)
  else
    acc ++ [(root, [rest])]

/-- Embedding of `get_nested(to_include)`: paths of at least two segments
are bucketed under their first segment; single-segment paths are skipped. -/
def get_nested (to_include : List DataPath) : List (String × List DataPath) :=
  go [] to_include
where
  go (acc : List (String × List DataPath)) :
      List DataPath → List (String × List DataPath)
    | [] => acc
    | p :: ps =>
      match p with
      | [] => go acc ps
      | [_] => go acc ps
      | b :: rest => go (addNested acc b rest) ps

/-- Collect the pks of one definition in the first sweep: for each
`(root, data_path)` pair, skip roots that are not requested, else extract
from the root payload via `get_pks`. -/
def collectPks (serializer_data : Val) (relevant_roots : Finset String) :
    List (String × DataPath) → Except String (List Val)
  | [] => .ok []
  | (root, data_path) :: rest =>
    if root ∈ relevant_roots then do
      let a ← get_pks serializer_data data_path
      let b ← collectPks serializer_data relevant_roots rest
      return a ++ b
    else
      collectPks serializer_data relevant_roots rest

/-- The first sweep of `extract_inclusions`: skip definitions that provide
no requested root and have no `inclusion_path`; instantiate the others;
defer those with an `inclusion_path`; resolve the rest immediately from
the root payload. -/
def firstSweep (requested_roots : Finset String) (serializer_data : Val) :
    List InclusionDefinition → Except String (List Inclusion)
  | [] => .ok []
  | definition :: rest => do
    let relevant_roots := definition.roots.toFinset ∩ requested_roots
    if relevant_roots = ∅ ∧ definition.inclusion_path = none then
      firstSweep requested_roots serializer_data rest
    else
      let inclusion := Inclusion.init definition
      if definition.inclusion_path.isSome then do
        let restIncls ← firstSweep requested_roots serializer_data rest
        return inclusion :: restIncls
      else do
        let pks ← collectPks serializer_data relevant_roots
          (definition.roots.zip definition.data_paths)
        let restIncls ← firstSweep requested_roots serializer_data rest
        return inclusion.resolve pks :: restIncls

/-- Python dict assignment `m[k] = v` on an insertion-ordered mapping. -/
def assocSet (m : List (String × List Val)) (k : String) (v : List Val) :
    List (String × List Val) :=
  if (m.lookup k).isSome then
    m.map (fun kv => if kv.1 = k then (kv.1, v) else kv)
  else
    m ++ [(k, v)]

/-- The `resolved` mapping built after the merge:
`{inclusion.definition.model_key: inclusion.data for ... if inclusion.resolved}`. -/
def buildResolved (env : Env) : List Inclusion → List (String × List Val)
  | [] => []
  | inc :: rest =>
    let m := buildResolved env rest
    if inc.resolved then
      -- dict comprehensions assign in iteration order, later entries win;
      -- building right-to-left with left-priority lookup is equivalent
      assocSet m (inc.definition.model_key env) (inc.data env)
    else
      m

/-- `resolved.setdefault(inclusion.definition.model_key, [])` followed by
`resolved[...] += inclusion.data`: append the freshly resolved
inclusion's rendered data under its own model key. -/
def updateResolvedMap (env : Env) (m : List (String × List Val))
    (inc : Inclusion) : List (String × List Val) :=
  let ownKey := inc.definition.model_key env
  let m1 := if (m.lookup ownKey).isSome then m else m ++ [(ownKey, [])]
  assocSet m1 ownKey (((m1.lookup ownKey).getD []) ++ inc.data env)

/-- One pass of the fixed-point loop body over the inclusion list,
threading the `resolved` mapping: resolved inclusions are skipped
untouched; an unresolved inclusion whose source model is absent from
`resolved` is pruned to the empty set when none of its roots was
requested, else retried next round; otherwise its pks are extracted from
the source model's known rendered data, it is resolved, and its own
rendered data is appended under its own model key. -/
def loopBody (env : Env) (requested_roots : Finset String) :
    List Inclusion → List (String × List Val) →
    Except String (List Inclusion × List (String × List Val))
  | [], resolvedMap => .ok ([], resolvedMap)
  | inclusion :: rest, resolvedMap =>
    if inclusion.resolved then do
      let (rest', m') ← loopBody env requested_roots rest resolvedMap
      return (inclusion :: rest', m')
    else
      match inclusion.definition.inclusion_path with
      | none =>
        -- `None.split(":")` – the engine never reaches this state
        .error "AttributeError"
      | some (model_key, data_path) =>
        match resolvedMap.lookup model_key with
        | none =>
          let relevant_roots := inclusion.definition.roots.toFinset ∩ requested_roots
          if relevant_roots = ∅ then do
            let (rest', m') ← loopBody env requested_roots rest resolvedMap
            return (inclusion.resolve [] :: rest', m')
          else do
            let (rest', m') ← loopBody env requested_roots rest resolvedMap
            return (inclusion :: rest', m')
        | some known => do
          let pks ← get_pks (.vlist known) data_path
          let inc := inclusion.resolve pks
          let (rest', m') ← loopBody env requested_roots rest
            (updateResolvedMap env resolvedMap inc)
          return (inc :: rest', m')

/-- The bounded fixed-point loop of `extract_inclusions`.  `i` is the
source's round counter: each round increments it and asserts `i < 200`
before running the body, so the body runs for `i = 1 .. 199` and the
assertion fires on the 200th entry.  Returns the final inclusions and the
number of body executions. -/
def resolveLoop (env : Env) (requested_roots : Finset String) (i : Nat)
    (inclusions : List Inclusion) (resolvedMap : List (String × List Val)) :
    Except String (List Inclusion × Nat) :=
  if inclusions.all (fun inc => inc.resolved) then .ok (inclusions, i)
  else if i + 1 < 200 then do
    let (inclusions', m') ← loopBody env requested_roots inclusions resolvedMap
    resolveLoop env requested_roots (i + 1) inclusions' m'
  else .error "Probably a bug in inclusions, this loop shouldn't run indefitinely"
termination_by 200 - i
decreasing_by omega

/-- The `requested_roots` set of `extract_inclusions`: the union of the
single-segment requested paths and the keys of the nested grouping,
after the `["*"]` wildcard is expanded into every top-level serializer
field (with every such field nested-requested as `"*"`). -/
def requested_roots_of (serializerFields : List String)
    (to_include : List DataPath) : Finset String :=
  let nested := get_nested to_include
  let star := to_include = [["*"]]
  let to_include := if star then serializerFields.map (fun f => [f]) else to_include
  let nested := if star then serializerFields.map (fun f => (f, [(["*"] : DataPath)])) else nested
  ((to_include.filter (fun p => p.length == 1)).map (fun p => p.headD "")).toFinset ∪
    (nested.map (fun kv => kv.1)).toFinset

/-- The body of `extract_inclusions` after the requested roots are known:
first sweep, merge, then the bounded fixed-point loop. -/
def extract_resolution (env : Env) (requested_roots : Finset String)
    (serializer_data : Val)
    (inclusion_definitions : List InclusionDefinition) :
    Except String (List Inclusion) := do
  let inclusions ← firstSweep requested_roots serializer_data inclusion_definitions
  let inclusions ← Inclusion.merge env inclusions
  let resolvedMap := buildResolved env inclusions
  let (finalIncls, _) ← resolveLoop env requested_roots 0 inclusions resolvedMap
  return finalIncls

/-- Embedding of `extract_inclusions(serializer, to_include,
serializer_data, inclusion_definitions)`.  The serializer argument is
represented by its (already `child`-unwrapped) ordered field names, the
only thing the function reads from it (for the `["*"]` expansion). -/
def extract_inclusions (env : Env) (serializerFields : List String)
    (to_include : List DataPath) (serializer_data : Val)
    (inclusion_definitions : List InclusionDefinition) :
    Except String (List Inclusion) :=
  if to_include = [] then .ok []
  else
    extract_resolution env (requested_roots_of serializerFields to_include)
      serializer_data inclusion_definitions

/-!  ## `hoist_inclusions`  -/

/-- `sorted(items, key=sort_key)`: compute the sort key of every item
first (an item without `id`/`pk` raises immediately), then stable-sort by
the keys.  Items are rendered objects; a non-object item is the
`TypeError` of `"id" in item`.  `keyLe` is the comparison on key values
(Python `<` on the concrete pk type, opaque here). -/
def sortByKey (keyLe : Val → Val → Bool) (items : List Val) :
    Except String (List Val) := do
  let keyed ← items.mapM (fun item =>
    match item with
    | .vobj fields => do
      let k ← sort_key fields
      return (k, item)
    | _ => .error "TypeError")
  return (keyed.mergeSort (fun a b => keyLe a.1 b.1)).map (fun kv => kv.2)

/-- Embedding of `hoist_inclusions(inclusions)`: merge once more by model
key, then render and sort each group, keyed by model key. -/
def hoist_inclusions (env : Env) (keyLe : Val → Val → Bool)
    (inclusions : List Inclusion) : Except String (List (String × List Val)) := do
  let merged ← Inclusion.merge env inclusions
  merged.mapM (fun inclusion => do
    let sortedData ← sortByKey keyLe (inclusion.data env)
    return (inclusion.definition.model_key env, sortedData))

/-!  ## The schema graph walker (`determine_inclusion_definitions`)

Serializer classes are opaque handles (`Nat`); `WEnv` gives the static
schema structure the walker introspects: the ordered declared fields of
each class and its `inclusion_serializers` mapping (the lazy
`import_string` resolution of string references is folded into the
lookup).  Recursion through `inclusion_serializers` can be cyclic, so the
walker carries a fuel parameter; `none` models non-termination /
exhaustion. -/

/-- A declared serializer field as the walker classifies it:
a primitive (skipped), a relational field (`RelatedField` /
`ManyRelatedField`, with object identity, many-flag and optional queryset
handle), or a nested serializer instance (with its many-flag folded away
by the `child` unwrap, and the class of the nested serializer). -/
inductive WField where
  | primitive
  | related (fid : Nat) (many : Bool) (qs : Option Nat)
  | nested (cls : Nat)
deriving DecidableEq, Repr

/-- Static schema structure: ordered fields per serializer class and the
`inclusion_serializers` declarations. -/
structure WEnv where
  wfields : Nat → List (String × WField)
  winclusion : Nat → String → Option Nat

/-- The `references` side table: inclusion serializer class ↦ recorded
referrers `(type(serializer), field_name)`. -/
abbrev Refs := List (Nat × List (Nat × String))

/-- Embedding of `get_data_path(data_path_start, name)`. -/
def get_data_path (data_path_start : Option DataPath) (name : String) : DataPath :=
  match data_path_start with
  | none => [name]
  | some p => p ++ [name]

/-- Embedding of `get_inclusion_path(inclusion_path_start, name)`.  A
start of the bare form `"model_key"` (no colon) is the pair `(m, [])`;
appending a name yields `"m:name"` alias `(m, [name])`; a start that
already has a colon appends with a dot. -/
def get_inclusion_path (inclusion_path_start : Option IncPath) (name : String) :
    Option IncPath :=
  match inclusion_path_start with
  | none => none
  | some (m, segs) => some (m, segs ++ [name])

/-- Record a referrer in the `references` table
(`references[cls] = [referrer]` / `.append(referrer)`). -/
def addReferrer (refs : Refs) (cls : Nat) (referrer : Nat × String) : Refs :=
  if (refs.lookup cls).isSome then
    refs.map (fun kv => if kv.1 = cls then (kv.1, kv.2 ++ [referrer]) else kv)
  else
    refs ++ [(cls, [referrer])]

mutual

/-- Embedding of `determine_inclusion_definitions(serializer, …)`.  The
serializer instance argument is its (already `child`-unwrapped) class
handle.  Returns the definitions, the references table as seen by the
caller (`none` stays `none`: `references or {}` allocates a dict the
caller never observes), and the next fresh object identity. -/
def determine_inclusion_definitions (wenv : WEnv) (env : Env) :
    Nat → Nat → Option DataPath → Option IncPath → Option Refs → Nat →
    Option (List InclusionDefinition × Option Refs × Nat)
  | 0, _, _, _, _, _ => none
  | fuel + 1, cls, data_path_start, inclusion_path_start, references, nextOid =>
    walkFields wenv env fuel cls (wenv.wfields cls) data_path_start
      inclusion_path_start references nextOid

/-- The field loop of `determine_inclusion_definitions`, threading the
references table (shared mutable dict) and the identity supply. -/
def walkFields (wenv : WEnv) (env : Env) (fuel : Nat) (cls : Nat) :
    List (String × WField) → Option DataPath → Option IncPath →
    Option Refs → Nat →
    Option (List InclusionDefinition × Option Refs × Nat)
  | [], _, _, references, nextOid => some ([], references, nextOid)
  | (name, fld) :: rest, data_path_start, inclusion_path_start, references, nextOid =>
    match fld with
    | .primitive =>
      walkFields wenv env fuel cls rest data_path_start inclusion_path_start
        references nextOid
    | .nested sub =>
      -- `get_nested_inclusion_definitions` recurses with no references
      -- argument, so the nested branch starts a fresh (unshared) table
      let data_path := get_data_path data_path_start name
      let inclusion_path := get_inclusion_path inclusion_path_start name
      match determine_inclusion_definitions wenv env fuel sub (some data_path)
          inclusion_path none nextOid with
      | none => none
      | some (defs, _, nextOid') =>
        match walkFields wenv env fuel cls rest data_path_start
            inclusion_path_start references nextOid' with
        | none => none
        | some (defs', refs', oid') => some (defs ++ defs', refs', oid')
    | .related fid many qs =>
      let data_path := get_data_path data_path_start name
      let inclusion_path := get_inclusion_path inclusion_path_start name
      match wenv.winclusion cls name with
      | none =>
        -- a FK without declared inclusion serializer yields nothing
        walkFields wenv env fuel cls rest data_path_start inclusion_path_start
          references nextOid
      | some inclCls =>
        let refsD := references.getD []
        let referrer : Nat × String := (cls, name)
        let recorded := (refsD.lookup inclCls).getD []
        if (refsD.lookup inclCls).isSome ∧ referrer ∈ recorded then
          -- circular reference detected: this branch stops, the table is
          -- unchanged, and the remaining sibling fields continue
          walkFields wenv env fuel cls rest data_path_start
            inclusion_path_start references nextOid
        else
          let refs1 := addReferrer refsD inclCls referrer
          let definition : InclusionDefinition :=
            { oid := nextOid, field := ⟨fid, many, qs⟩,
              serializer_class := inclCls,
              data_paths := [data_path], inclusion_path := inclusion_path }
          match determine_inclusion_definitions wenv env fuel inclCls
              (some data_path) (some (definition.model_key env, []))
              (some refs1) (nextOid + 1) with
          | none => none
          | some (defs, refs2, nextOid') =>
            let referencesAfter :=
              if references.isSome then refs2 else none
            match walkFields wenv env fuel cls rest data_path_start
                inclusion_path_start referencesAfter nextOid' with
            | none => none
            | some (defs', refs', oid') =>
              some ((definition :: defs) ++ defs', refs', oid')

end

end DataInclusion

namespace Renderer

/-!  ## `renderer.InclusionJSONRenderer.render`

The render method is embedded up to the abstract collaborators it calls:
the base `JSONRenderer.render` (pure JSON encoding, out of scope — the
embedding's result is the payload handed to it) and `extract_relations`
(the pipeline verified piecewise above, opaque here).  -/

/-- The response object in the renderer context. -/
structure Response where
  status_code : Nat

/-- The view in the renderer context, when present and exposing an
`action` attribute: the current action name (`none`/`""` are falsy) and
whether the action callable carries all five custom-action decorator
attributes. -/
structure RView where
  action : Option String
  actionIsCustom : Bool

/-- The request, reduced to what `extract_relations` reads from it. -/
structure RRequest where
  includeParam : Option String

/-- The `renderer_context` mapping. -/
structure RContext where
  response : Option Response
  view : Option RView
  request : Option RRequest

/-- The `data` argument of `render`: its JSON value, the `serializer`
attribute DRF attaches to `ReturnDict`/`ReturnList` payloads (of the
whole payload and of the `results` entry when present), and whether the
payload object is a `ReturnDict` (as opposed to a plain pagination
dict). -/
structure RData where
  value : Val
  topSerializer : Option Nat
  resultsSerializer : Option Nat
  isReturnDict : Bool

/-- Collaborators of `render`: `has_inclusion_serializers` (for
`should_skip_inclusions`) and `extract_relations` (the inclusion
pipeline producing the hoisted `{model_key: [entity, …]}` mapping). -/
structure REnv where
  hasInclusions : Nat → Bool
  extractRelations : Option RRequest → Nat → Val → Except String (List (String × Val))

/-- Python truthiness of a rendered value. -/
def truthy : Val → Bool
  | .vnull => false
  | .vint n => !(n == 0)
  | .vstr s => !(s == "")
  | .vlist items => !items.isEmpty
  | .vobj fields => !fields.isEmpty

/-- `"results" in data` (for the mapping payloads the renderer sees;
a list payload holds rendered objects, never the bare string). -/
def hasResultsKey : Val → Bool
  | .vobj fields => (fields.lookup "results").isSome
  | _ => false

/-- The fields of an object value. -/
def objFields : Val → List (String × Val)
  | .vobj fields => fields
  | _ => []

/-- Embedding of `InclusionJSONRenderer.render(data, …)`: the result is
the payload handed to the base `JSONRenderer`.  Error responses (status
`>= 400`) and payloads without an attached serializer pass `data`
through as-is; a falsy `view.action` or a custom action on an
inclusion-free serializer also pass through; otherwise the payload is
restructured into `data`/`inclusions` with the remaining top-level keys
(pagination metadata) preserved. -/
def render (renv : REnv) (data : RData) (ctx : RContext) : Except String Val :=
  let response := ctx.response
  if (match response with
      | some r => decide (400 ≤ r.status_code)
      | none => false) then
    .ok data.value
  else
    let useResults := truthy data.value && hasResultsKey data.value
    let serializer_data :=
      if useResults then ((objFields data.value).lookup "results").getD .vnull
      else data.value
    let serializer :=
      if useResults then data.resultsSerializer else data.topSerializer
    match serializer with
    | none => .ok data.value
    | some ser =>
      let skipForAction : Bool :=
        match ctx.view with
        | none => false
        | some v =>
          match v.action with
          | none => true
          | some a =>
            if a = "" then true
            else v.actionIsCustom && !(renv.hasInclusions ser)
      if skipForAction then .ok data.value
      else do
        let inclusions ← renv.extractRelations ctx.request ser serializer_data
        let extraKeys :=
          if (match data.value with | .vobj _ => true | _ => false)
              && !data.isReturnDict then
            (objFields data.value).filter (fun kv => kv.1 ≠ "results")
          else []
        return .vobj ([("data", serializer_data), ("inclusions", .vobj inclusions)]
          ++ extraKeys)

end Renderer

/-!  ## Verification vocabulary

Definitions used only to state the verified properties (not embeddings of
source code). -/

/-- Pointwise evolution of one `Inclusion` slot across one engine step:
a resolved inclusion is left untouched; the pk set only grows; the
resolved flag is monotone. -/
def IncStep (a b : DataInclusion.Inclusion) : Prop :=
  (a.resolved = true → b = a) ∧ a.pks.Sublist b.pks ∧
    (a.resolved = true → b.resolved = true)

/-- The entity-reference key of an emitted walker entry. -/
def entryKey (e : Core.CEntry) : Core.SeenEntry := (e.1.label, e.1.pk)

/-- The seen-set invariant of one walker call: when it returns normally,
the seen-set only grows, the emitted entries carry pairwise-distinct
entity-reference keys, and every emitted key is newly recorded (absent
from the incoming seen-set, present in the outgoing one). -/
def WalkInv (seen : List Core.SeenEntry)
    (r : Except String (List Core.CEntry × List Core.SeenEntry)) : Prop :=
  ∀ entries seen', r = .ok (entries, seen') →
    (∀ p ∈ seen, p ∈ seen') ∧
    (entries.map entryKey).Nodup ∧
    (∀ p ∈ entries.map entryKey, p ∈ seen' ∧ p ∉ seen)

namespace DataInclusion

/-- The data paths of a definition, as a multiset (merge combines them
in input order; the grouping is compared up to reordering). -/
def pathsMultiset (d : InclusionDefinition) : Multiset DataPath :=
  (d.data_paths : Multiset DataPath)

/-- The observable content of one merged group: backing queryset,
serializer class, inclusion path, and the multiset of data paths. -/
def defTuple (env : Env) (d : InclusionDefinition) :
    Nat × Nat × Option IncPath × Multiset DataPath :=
  (d.queryset env, d.serializer_class, d.inclusion_path, pathsMultiset d)

/-- The grouping produced by a definition list: its multiset of group
tuples (object identities and output order are not part of the
grouping). -/
def grouping (env : Env) (l : List InclusionDefinition) :
    Multiset (Nat × Nat × Option IncPath × Multiset DataPath) :=
  (l.map (defTuple env) : Multiset _)

/-- The mergeability key of a definition. -/
def mergeKey (env : Env) (d : InclusionDefinition) : Nat × Nat :=
  (d.queryset env, d.serializer_class)

/-- The distinct mergeability keys of the path-less definitions in a
list. -/
def noneKeys (env : Env) (l : List InclusionDefinition) : Finset (Nat × Nat) :=
  ((l.filter (fun d => d.inclusion_path.isNone)).map (mergeKey env)).toFinset

/-- The combined data-path multiset of the path-less definitions with a
given mergeability key. -/
def noneSum (env : Env) (l : List InclusionDefinition) (k : Nat × Nat) :
    Multiset DataPath :=
  (((l.filter (fun d => d.inclusion_path.isNone)).filter
      (fun d => mergeKey env d = k)).map pathsMultiset).sum

/-- The canonical grouping of a definition list as the merge invariant
describes it: one group per distinct mergeability key among the
path-less definitions, carrying the union of their data paths, plus one
singleton group per definition with an `inclusion_path`.  Every
component is invariant under permutation of the input. -/
def specGrouping (env : Env) (l : List InclusionDefinition) :
    Multiset (Nat × Nat × Option IncPath × Multiset DataPath) :=
  (noneKeys env l).val.map (fun k => (k.1, k.2, (none : Option IncPath), noneSum env l k)) +
    ((l.filter (fun d => !d.inclusion_path.isNone)).map (defTuple env) : Multiset _)

/-- The multiset of all data paths carried by a definition list. -/
def allPaths (l : List InclusionDefinition) : Multiset DataPath :=
  (l.map pathsMultiset).sum

/-- The object identities of a definition list. -/
def oids (l : List InclusionDefinition) : List Nat :=
  l.map (fun d => d.oid)

end DataInclusion

/-!  # Theorems  -/

/-!  ## Helper lemmas  -/

/-- `mapM` over `Except` fails whenever some element fails. -/
theorem mapM_error_of_mem {α β : Type} (f : α → Except String β)
    (l : List α) (x : α) (hx : x ∈ l) (m : String) (he : f x = .error m) :
    ∃ msg, l.mapM f = .error msg := by
  induction l with
  | nil => cases hx
  | cons y ys ih =>
    rw [List.mapM_cons]
    rcases List.mem_cons.mp hx with h | h
    · subst h
      rw [he]
      exact ⟨m, rfl⟩
    · cases hy : f y with
      | error m' => exact ⟨m', rfl⟩
      | ok b =>
        obtain ⟨msg, hmsg⟩ := ih h
        rw [hmsg]
        exact ⟨msg, rfl⟩

/-- `get_pks` on a list payload is the concatenation of the per-element
results. -/
theorem get_pks_list_eq_mapM (items : List Val) (path : DataPath) :
    DataInclusion.get_pks_list items path =
      (items.mapM (fun v => DataInclusion.get_pks v path)).map List.flatten := by
  induction items with
  | nil =>
    simp [DataInclusion.get_pks_list, List.mapM.loop, Except.map, pure, Except.pure]
  | cons v vs ih =>
    rw [DataInclusion.get_pks_list, List.mapM_cons]
    cases hv : DataInclusion.get_pks v path with
    | error m => simp [hv, Except.map, Bind.bind, Except.bind]
    | ok a =>
      rw [ih]
      cases hvs : vs.mapM (fun v => DataInclusion.get_pks v path) with
      | error m => simp [hv, hvs, Except.map, Bind.bind, Except.bind]
      | ok bs =>
        simp [hv, hvs, Except.map, Bind.bind, Except.bind, pure, Except.pure,
          List.flatten]

/-!  ## C7 — error responses pass through unmodified  -/

/-- C7: for every response with status code `>= 400` present in the
renderer context, `InclusionJSONRenderer.render` hands the response data
to the base renderer unmodified, independently of every collaborator (no
restructuring, no inclusion resolution). -/
theorem render_error_passthrough (renv : Renderer.REnv) (data : Renderer.RData)
    (ctx : Renderer.RContext) (r : Renderer.Response)
    (hr : ctx.response = some r) (h400 : 400 ≤ r.status_code) :
    Renderer.render renv data ctx = .ok data.value := by
  unfold Renderer.render
  rw [hr]
  simp [h400]

/-- Witness for C7 at a concrete 404 response. -/
theorem render_error_passthrough_witness :
    Renderer.render
      ⟨fun _ => true, fun _ _ _ => .ok []⟩
      ⟨Val.vobj [("x", Val.vint 1)], some 0, none, false⟩
      ⟨some ⟨404⟩, none, none⟩ = .ok (Val.vobj [("x", Val.vint 1)]) :=
  render_error_passthrough _ _ _ ⟨404⟩ rfl (by decide)

/-!  ## C3 — the hoister's sort key  -/

/-- C3 counterexample: the claim says `hoist_inclusions`' sort key falls
back to a rendered `url` field when `id` and `pk` are absent; on the
code (`data_inclusion.sort_key`, the key function `hoist_inclusions`
sorts with) an item carrying only `url` raises `ValueError` instead. -/
theorem sort_key_ignores_url :
    DataInclusion.sort_key [("url", Val.vint 1)] =
      .error "Item does not contain a reference to the 'id'. Please included it in the serializer." :=
  rfl

/-- C3 amended: `hoist_inclusions` sorts each per-entity-type list by the
rendered `id` field if present, else the `pk` field (there is no `url`
fallback), and when both are absent from a rendered item it raises an
error immediately rather than silently dropping or emitting the item
unsorted: the sorted output is never produced. -/
theorem hoist_sort_key_id_else_pk :
    (∀ item : List (String × Val), ∀ v,
      item.lookup "id" = some v → DataInclusion.sort_key item = .ok v) ∧
    (∀ item : List (String × Val), ∀ v,
      item.lookup "id" = none → item.lookup "pk" = some v →
      DataInclusion.sort_key item = .ok v) ∧
    (∀ item : List (String × Val),
      item.lookup "id" = none → item.lookup "pk" = none →
      DataInclusion.sort_key item =
        .error "Item does not contain a reference to the 'id'. Please included it in the serializer.") ∧
    (∀ keyLe (items : List Val) (fields : List (String × Val)),
      Val.vobj fields ∈ items →
      fields.lookup "id" = none → fields.lookup "pk" = none →
      ∃ msg, DataInclusion.sortByKey keyLe items = .error msg) := by
  refine ⟨?_, ?_, ?_, ?_⟩
  · intro item v h
    simp [DataInclusion.sort_key, h]
  · intro item v hid hpk
    simp [DataInclusion.sort_key, hid, hpk]
  · intro item hid hpk
    simp [DataInclusion.sort_key, hid, hpk]
  · intro keyLe items fields hmem hid hpk
    unfold DataInclusion.sortByKey
    obtain ⟨msg, hmsg⟩ := mapM_error_of_mem
      (fun item => match item with
        | .vobj fields => do
          let k ← DataInclusion.sort_key fields
          return (k, item)
        | _ => .error "TypeError")
      items (Val.vobj fields) hmem
      "Item does not contain a reference to the 'id'. Please included it in the serializer."
      (by simp [DataInclusion.sort_key, hid, hpk])
    rw [hmsg]
    exact ⟨msg, rfl⟩

/-- Witness for the amended C3 theorem at concrete items. -/
theorem hoist_sort_key_id_else_pk_witness :
    DataInclusion.sort_key [("id", Val.vint 7)] = .ok (Val.vint 7) ∧
    DataInclusion.sort_key [("pk", Val.vint 8)] = .ok (Val.vint 8) ∧
    DataInclusion.sort_key [("name", Val.vstr "x")] =
      .error "Item does not contain a reference to the 'id'. Please included it in the serializer." ∧
    ∃ msg, DataInclusion.sortByKey (fun _ _ => true)
      [Val.vobj [("url", Val.vint 1)]] = .error msg :=
  ⟨hoist_sort_key_id_else_pk.1 _ _ rfl,
   hoist_sort_key_id_else_pk.2.1 _ _ rfl rfl,
   hoist_sort_key_id_else_pk.2.2.1 _ rfl rfl,
   hoist_sort_key_id_else_pk.2.2.2 _ _ [("url", Val.vint 1)]
     (List.mem_singleton.mpr rfl) rfl rfl⟩

/-!  ## C5 — the identifier extractor  -/

/-- C5: `get_pks` yields `[]` on `None`; concatenates the per-element
recursive results on a sequence; on a mapping with a single-segment path
returns the value at the key, wrapped into a list when it is not already
a list; and on a multi-segment path recurses into the value at the first
segment with the remainder of the path. -/
theorem get_pks_structure :
    (∀ path, DataInclusion.get_pks .vnull path = .ok []) ∧
    (∀ items path, DataInclusion.get_pks (.vlist items) path =
      (items.mapM (fun v => DataInclusion.get_pks v path)).map List.flatten) ∧
    (∀ fields key xs, fields.lookup key = some (.vlist xs) →
      DataInclusion.get_pks (.vobj fields) [key] = .ok xs) ∧
    (∀ fields key v, fields.lookup key = some v → (∀ xs, v ≠ .vlist xs) →
      DataInclusion.get_pks (.vobj fields) [key] = .ok [v]) ∧
    (∀ fields first_key remainder v, remainder ≠ [] →
      fields.lookup first_key = some v →
      DataInclusion.get_pks (.vobj fields) (first_key :: remainder) =
        DataInclusion.get_pks v remainder) := by
  refine ⟨?_, ?_, ?_, ?_, ?_⟩
  · intro path
    simp [DataInclusion.get_pks]
  · intro items path
    rw [DataInclusion.get_pks]
    exact get_pks_list_eq_mapM items path
  · intro fields key xs h
    simp [DataInclusion.get_pks, h]
  · intro fields key v h hv
    cases v with
    | vlist xs => exact absurd rfl (hv xs)
    | vnull => simp [DataInclusion.get_pks, h]
    | vint n => simp [DataInclusion.get_pks, h]
    | vstr s => simp [DataInclusion.get_pks, h]
    | vobj fs => simp [DataInclusion.get_pks, h]
  · intro fields first_key remainder v hrem h
    match remainder with
    | r :: rs => simp [DataInclusion.get_pks, h]

/-- Witness for C5 at concrete payloads. -/
theorem get_pks_structure_witness :
    DataInclusion.get_pks (.vlist [Val.vnull]) ["a"] =
      (([Val.vnull].mapM (fun v => DataInclusion.get_pks v ["a"])).map List.flatten) ∧
    DataInclusion.get_pks (.vobj [("a", .vlist [.vint 1])]) ["a"] = .ok [.vint 1] ∧
    DataInclusion.get_pks (.vobj [("a", .vint 2)]) ["a"] = .ok [.vint 2] ∧
    DataInclusion.get_pks (.vobj [("a", .vobj [("b", .vint 3)])]) ["a", "b"] =
      DataInclusion.get_pks (.vobj [("b", .vint 3)]) ["b"] :=
  ⟨get_pks_structure.2.1 [Val.vnull] ["a"],
   get_pks_structure.2.2.1 _ "a" [.vint 1] rfl,
   get_pks_structure.2.2.2.1 _ "a" (.vint 2) rfl (by intro xs h; cases h),
   get_pks_structure.2.2.2.2 _ "a" ["b"] (.vobj [("b", .vint 3)])
     (by decide) rfl⟩

/-!  ## C2 — mergeability and data-path union  -/

/-- Once the processed copy is exhausted, the merge loop emits nothing. -/
theorem mergeAux_nil_inputs (env : DataInclusion.Env)
    (iter : List DataInclusion.InclusionDefinition) (fresh : Nat) :
    DataInclusion.mergeAux env iter [] fresh = [] := by
  induction iter with
  | nil => rfl
  | cons d rest ih => simp [DataInclusion.mergeAux, ih]

/-- Characterization of `is_mergeable_with` as a conjunction. -/
theorem is_mergeable_with_iff (env : DataInclusion.Env)
    (d1 d2 : DataInclusion.InclusionDefinition) :
    DataInclusion.InclusionDefinition.is_mergeable_with env d1 d2 = true ↔
      (d1.inclusion_path = none ∧ d2.inclusion_path = none ∧
       d1.queryset env = d2.queryset env ∧
       d1.serializer_class = d2.serializer_class) := by
  unfold DataInclusion.InclusionDefinition.is_mergeable_with
  constructor
  · intro h
    split_ifs at h with h1 h2 h3
    · obtain ⟨e1, e2⟩ : d1.inclusion_path = none ∧ d2.inclusion_path = none := by
        simpa using h1
      exact ⟨e1, e2, by simpa using h2, by simpa using h3⟩
  · rintro ⟨e1, e2, e3, e4⟩
    simp [e1, e2, e3, e4]

/-- C2: `is_mergeable_with` holds iff both definitions have no
`inclusion_path`, resolve to the identical backing queryset object and
have the identical serializer class; and merging a group of mutually
mergeable definitions yields one definition whose `data_paths` is the
concatenation of the members' `data_paths`. -/
theorem is_mergeable_and_merge_unions :
    (∀ (env : DataInclusion.Env) (d1 d2 : DataInclusion.InclusionDefinition),
      DataInclusion.InclusionDefinition.is_mergeable_with env d1 d2 = true ↔
        (d1.inclusion_path = none ∧ d2.inclusion_path = none ∧
         d1.queryset env = d2.queryset env ∧
         d1.serializer_class = d2.serializer_class)) ∧
    (∀ (env : DataInclusion.Env) (d : DataInclusion.InclusionDefinition)
       (rest : List DataInclusion.InclusionDefinition),
      (((d :: rest).map (fun x => x.oid)).Nodup) →
      (∀ x ∈ d :: rest, ∀ y ∈ d :: rest,
        DataInclusion.InclusionDefinition.is_mergeable_with env x y = true) →
      DataInclusion.merge_inclusion_definitions env (d :: rest) =
        [{ oid := DataInclusion.maxOid (d :: rest) + 1, field := d.field,
           serializer_class := d.serializer_class,
           data_paths := ((d :: rest).map (fun x => x.data_paths)).flatten,
           inclusion_path := none }]) := by
  have hiff := is_mergeable_with_iff
  refine ⟨hiff, ?_⟩
  intro env d rest hnodup hmerge
  have hdmem : d ∈ d :: rest := List.mem_cons_self _ _
  have hoid : ∀ x ∈ rest, x.oid ≠ d.oid := by
    intro x hx
    simp only [List.map_cons, List.nodup_cons] at hnodup
    intro hEq
    exact hnodup.1 (hEq ▸ List.mem_map_of_mem (fun y => y.oid) hx)
  have hpredd : DataInclusion.matchPred env d d = false := by
    simp [DataInclusion.matchPred]
  have hpredx : ∀ x ∈ rest, DataInclusion.matchPred env d x = true := by
    intro x hx
    unfold DataInclusion.matchPred
    rw [hmerge x (List.mem_cons_of_mem _ hx) d hdmem]
    simp [hoid x hx]
  unfold DataInclusion.merge_inclusion_definitions
  rw [DataInclusion.mergeAux]
  rw [if_pos hdmem]
  have hfilter : (d :: rest).filter (DataInclusion.matchPred env d) = rest := by
    rw [List.filter_cons, hpredd]
    simp only [if_false, Bool.false_eq_true]
    exact List.filter_eq_self.mpr hpredx
  have herase : (d :: rest).erase d = rest := List.erase_cons_head d rest
  have hfilter2 : (rest.filter (fun e => !(DataInclusion.matchPred env d e))) = [] := by
    apply List.filter_eq_nil_iff.mpr
    intro x hx
    simp [hpredx x hx]
  have hip : d.inclusion_path = none := ((hiff env d d).mp (hmerge d hdmem d hdmem)).1
  simp only [hfilter, herase, hfilter2]
  simp [hip, mergeAux_nil_inputs]

/-- Witness for C2 at two concrete mergeable definitions. -/
theorem is_mergeable_and_merge_unions_witness :
    (DataInclusion.InclusionDefinition.is_mergeable_with
        ⟨fun _ => 0, fun _ => "m", fun _ _ _ => []⟩
        ⟨1, ⟨10, false, some 5⟩, 3, [["a"]], none⟩
        ⟨2, ⟨11, false, some 5⟩, 3, [["b"]], none⟩ = true ↔
      ((none : Option DataInclusion.IncPath) = none ∧
       (none : Option DataInclusion.IncPath) = none ∧
       DataInclusion.InclusionDefinition.queryset
         ⟨fun _ => 0, fun _ => "m", fun _ _ _ => []⟩ ⟨1, ⟨10, false, some 5⟩, 3, [["a"]], none⟩ =
       DataInclusion.InclusionDefinition.queryset
         ⟨fun _ => 0, fun _ => "m", fun _ _ _ => []⟩ ⟨2, ⟨11, false, some 5⟩, 3, [["b"]], none⟩ ∧
       (3 : Nat) = 3)) ∧
    DataInclusion.merge_inclusion_definitions
      ⟨fun _ => 0, fun _ => "m", fun _ _ _ => []⟩
      [⟨1, ⟨10, false, some 5⟩, 3, [["a"]], none⟩,
       ⟨2, ⟨11, false, some 5⟩, 3, [["b"]], none⟩] =
      [{ oid := DataInclusion.maxOid
           [⟨1, ⟨10, false, some 5⟩, 3, [["a"]], none⟩,
            ⟨2, ⟨11, false, some 5⟩, 3, [["b"]], none⟩] + 1,
         field := ⟨10, false, some 5⟩, serializer_class := 3,
         data_paths := [["a"], ["b"]], inclusion_path := none }] := by
  constructor
  · exact is_mergeable_and_merge_unions.1 _ _ _
  · have h := is_mergeable_and_merge_unions.2
      ⟨fun _ => 0, fun _ => "m", fun _ _ _ => []⟩
      ⟨1, ⟨10, false, some 5⟩, 3, [["a"]], none⟩
      [⟨2, ⟨11, false, some 5⟩, 3, [["b"]], none⟩]
      (by decide) (by decide)
    simpa using h

/-!  ## C1 — the fixed-point loop is bounded  -/

/-- The resolution loop, when it returns normally from a round counter
within the bound, returns with a counter still within the bound and every
inclusion resolved. -/
theorem resolveLoop_ok_invariant (fuelBound : Nat) :
    ∀ (env : DataInclusion.Env) (rr : Finset String) (i : Nat)
      (st : List DataInclusion.Inclusion) (m : List (String × List Val))
      (out : List DataInclusion.Inclusion) (n : Nat),
      200 - i ≤ fuelBound → i ≤ 199 →
      DataInclusion.resolveLoop env rr i st m = .ok (out, n) →
      n ≤ 199 ∧ ∀ inc ∈ out, inc.resolved = true := by
  induction fuelBound with
  | zero =>
    intro env rr i st m out n hfb hi _
    omega
  | succ fb ih =>
    intro env rr i st m out n hfb hi hok
    unfold DataInclusion.resolveLoop at hok
    by_cases hall : st.all (fun inc => inc.resolved) = true
    · rw [if_pos hall] at hok
      cases hok
      exact ⟨hi, fun inc hinc => List.all_eq_true.mp hall inc hinc⟩
    · rw [if_neg hall] at hok
      by_cases hlt : i + 1 < 200
      · rw [if_pos hlt] at hok
        cases hbody : DataInclusion.loopBody env rr st m with
        | error msg =>
          rw [hbody] at hok
          cases hok
        | ok pair =>
          rw [hbody] at hok
          exact ih env rr (i + 1) pair.1 pair.2 out n (by omega) (by omega) hok
      · rw [if_neg hlt] at hok
        cases hok

/-- C1: the fixed-point loop of `extract_inclusions` is bounded: from the
initial counter it executes at most 199 rounds (in particular at most
200); if inclusions remain unresolved when the bound is reached the
assertion raises instead of looping; and whenever `extract_inclusions`
returns normally every returned inclusion is resolved. -/
theorem extract_inclusions_loop_bounded :
    (∀ (env : DataInclusion.Env) (fields : List String)
       (to_include : List DataPath) (data : Val)
       (defs : List DataInclusion.InclusionDefinition)
       (incls : List DataInclusion.Inclusion),
      DataInclusion.extract_inclusions env fields to_include data defs = .ok incls →
      ∀ inc ∈ incls, inc.resolved = true) ∧
    (∀ (env : DataInclusion.Env) (rr : Finset String)
       (st : List DataInclusion.Inclusion) (m : List (String × List Val))
       (out : List DataInclusion.Inclusion) (n : Nat),
      DataInclusion.resolveLoop env rr 0 st m = .ok (out, n) →
      n ≤ 199 ∧ ∀ inc ∈ out, inc.resolved = true) ∧
    (∀ (env : DataInclusion.Env) (rr : Finset String) (i : Nat)
       (st : List DataInclusion.Inclusion) (m : List (String × List Val)),
      199 ≤ i → ¬(st.all (fun inc => inc.resolved) = true) →
      DataInclusion.resolveLoop env rr i st m =
        .error "Probably a bug in inclusions, this loop shouldn't run indefitinely") := by
  have herr : ∀ (env : DataInclusion.Env) (rr : Finset String) (i : Nat)
      (st : List DataInclusion.Inclusion) (m : List (String × List Val)),
      199 ≤ i → ¬(st.all (fun inc => inc.resolved) = true) →
      DataInclusion.resolveLoop env rr i st m =
        .error "Probably a bug in inclusions, this loop shouldn't run indefitinely" := by
    intro env rr i st m hi hall
    unfold DataInclusion.resolveLoop
    rw [if_neg hall, if_neg (by omega)]
  have hchain : ∀ (env : DataInclusion.Env) (rr : Finset String) (data : Val)
      (defs : List DataInclusion.InclusionDefinition)
      (incls : List DataInclusion.Inclusion),
      DataInclusion.extract_resolution env rr data defs = Except.ok incls →
      ∀ inc ∈ incls, inc.resolved = true := by
    intro env rr data defs incls hok
    unfold DataInclusion.extract_resolution at hok
    simp only [bind, Except.bind] at hok
    cases hfs : DataInclusion.firstSweep rr data defs with
    | error msg =>
      simp only [hfs] at hok
      cases hok
    | ok incls0 =>
      simp only [hfs] at hok
      cases hm : DataInclusion.Inclusion.merge env incls0 with
      | error msg =>
        simp only [hm] at hok
        cases hok
      | ok incls1 =>
        simp only [hm] at hok
        cases hloop : DataInclusion.resolveLoop env rr 0 incls1
            (DataInclusion.buildResolved env incls1) with
        | error msg =>
          simp only [hloop] at hok
          cases hok
        | ok pair =>
          simp only [hloop, pure, Except.pure, Except.ok.injEq] at hok
          subst hok
          exact (resolveLoop_ok_invariant 200 env rr 0 incls1
            (DataInclusion.buildResolved env incls1) pair.1 pair.2
            (by omega) (by omega) hloop).2
  refine ⟨?_, ?_, herr⟩
  · intro env fields to_include data defs incls hok
    unfold DataInclusion.extract_inclusions at hok
    by_cases hinc : to_include = []
    · rw [if_pos hinc] at hok
      cases hok
      intro inc hmem
      cases hmem
    · rw [if_neg hinc] at hok
      exact hchain env _ data defs incls hok
  · intro env rr st m out n hok
    exact resolveLoop_ok_invariant 200 env rr 0 st m out n (by omega) (by omega) hok

/-- Witness for C1 at concrete inputs: an empty request returns normally
with everything (vacuously) resolved; an already-resolved state exits
with zero rounds; an unresolved inclusion at the bound raises the
assertion. -/
theorem extract_inclusions_loop_bounded_witness :
    (∀ inc ∈ ([] : List DataInclusion.Inclusion), inc.resolved = true) ∧
    (0 ≤ 199 ∧ ∀ inc ∈ ([] : List DataInclusion.Inclusion), inc.resolved = true) ∧
    DataInclusion.resolveLoop ⟨fun _ => 0, fun _ => "m", fun _ _ _ => []⟩ ∅ 199
      [DataInclusion.Inclusion.init ⟨0, ⟨0, false, none⟩, 0, [["a"]], none⟩] [] =
      .error "Probably a bug in inclusions, this loop shouldn't run indefitinely" := by
  refine ⟨?_, ?_, ?_⟩
  · exact extract_inclusions_loop_bounded.1
      ⟨fun _ => 0, fun _ => "m", fun _ _ _ => []⟩ [] [] Val.vnull [] [] rfl
  · refine ⟨by omega, ?_⟩
    exact (extract_inclusions_loop_bounded.2.1
      ⟨fun _ => 0, fun _ => "m", fun _ _ _ => []⟩ ∅ [] [] [] 0
      (by unfold DataInclusion.resolveLoop; rfl)).2
  · exact extract_inclusions_loop_bounded.2.2
      ⟨fun _ => 0, fun _ => "m", fun _ _ _ => []⟩ ∅ 199 _ []
      (by omega) (by simp [DataInclusion.Inclusion.init])

/-!  ## C8 — pk sets grow while unresolved and freeze once resolved  -/

/-- `IncStep` is reflexive. -/
theorem incStep_refl (a : DataInclusion.Inclusion) : IncStep a a :=
  ⟨fun _ => rfl, List.Sublist.refl _, fun h => h⟩

/-- `IncStep` is transitive. -/
theorem incStep_trans {a b c : DataInclusion.Inclusion}
    (h1 : IncStep a b) (h2 : IncStep b c) : IncStep a c := by
  obtain ⟨h1a, h1b, h1c⟩ := h1
  obtain ⟨h2a, h2b, h2c⟩ := h2
  refine ⟨?_, h1b.trans h2b, fun h => h2c (h1c h)⟩
  intro h
  rw [h2a (h1c h), h1a h]

/-- One loop pass relates the inclusion list pointwise by `IncStep`. -/
theorem loopBody_stepwise (env : DataInclusion.Env) (rr : Finset String) :
    ∀ (incls : List DataInclusion.Inclusion) (m : List (String × List Val))
      (incls' : List DataInclusion.Inclusion) (m' : List (String × List Val)),
      DataInclusion.loopBody env rr incls m = .ok (incls', m') →
      List.Forall₂ IncStep incls incls' := by
  intro incls
  induction incls with
  | nil =>
    intro m incls' m' h
    rw [DataInclusion.loopBody] at h
    cases h
    exact List.Forall₂.nil
  | cons inc rest ih =>
    intro m incls' m' h
    rw [DataInclusion.loopBody] at h
    simp only [bind, Except.bind] at h
    by_cases hres : inc.resolved = true
    · rw [if_pos hres] at h
      cases hrec : DataInclusion.loopBody env rr rest m with
      | error msg =>
        simp only [hrec] at h
        cases h
      | ok p =>
        obtain ⟨rest', m0⟩ := p
        simp only [hrec, pure, Except.pure, Except.ok.injEq, Prod.mk.injEq] at h
        obtain ⟨h1, h2⟩ := h
        subst h1
        exact List.Forall₂.cons (incStep_refl inc) (ih m rest' m0 hrec)
    · rw [if_neg hres] at h
      cases hip : inc.definition.inclusion_path with
      | none =>
        simp only [hip] at h
        cases h
      | some mp =>
        obtain ⟨mk, dp⟩ := mp
        simp only [hip] at h
        cases hlk : m.lookup mk with
        | none =>
          simp only [hlk] at h
          by_cases hrel : (inc.definition.roots.toFinset ∩ rr) = ∅
          · rw [if_pos hrel] at h
            cases hrec : DataInclusion.loopBody env rr rest m with
            | error msg =>
              simp only [hrec] at h
              cases h
            | ok p =>
              obtain ⟨rest', m0⟩ := p
              simp only [hrec, pure, Except.pure, Except.ok.injEq, Prod.mk.injEq] at h
              obtain ⟨h1, h2⟩ := h
              subst h1
              refine List.Forall₂.cons ⟨fun hr => absurd hr hres, ?_, fun hr => absurd hr hres⟩
                (ih m rest' m0 hrec)
              simp [DataInclusion.Inclusion.resolve, DataInclusion.Inclusion.add_objects]
          · rw [if_neg hrel] at h
            cases hrec : DataInclusion.loopBody env rr rest m with
            | error msg =>
              simp only [hrec] at h
              cases h
            | ok p =>
              obtain ⟨rest', m0⟩ := p
              simp only [hrec, pure, Except.pure, Except.ok.injEq, Prod.mk.injEq] at h
              obtain ⟨h1, h2⟩ := h
              subst h1
              exact List.Forall₂.cons (incStep_refl inc) (ih m rest' m0 hrec)
        | some known =>
          simp only [hlk] at h
          cases hpk : DataInclusion.get_pks (.vlist known) dp with
          | error msg =>
            simp only [hpk] at h
            cases h
          | ok pks =>
            simp only [hpk] at h
            cases hrec : DataInclusion.loopBody env rr rest
                (DataInclusion.updateResolvedMap env m (inc.resolve pks)) with
            | error msg =>
              simp only [hrec] at h
              cases h
            | ok p =>
              obtain ⟨rest', m0⟩ := p
              simp only [hrec, pure, Except.pure, Except.ok.injEq, Prod.mk.injEq] at h
              obtain ⟨h1, h2⟩ := h
              subst h1
              refine List.Forall₂.cons ⟨fun hr => absurd hr hres, ?_, fun hr => absurd hr hres⟩
                (ih _ rest' m0 hrec)
              simp [DataInclusion.Inclusion.resolve, DataInclusion.Inclusion.add_objects,
                List.sublist_append_left]

/-- `Forall₂` composes along a transitive relation. -/
theorem forall₂_trans_incstep :
    ∀ {a b c : List DataInclusion.Inclusion},
      List.Forall₂ IncStep a b → List.Forall₂ IncStep b c →
      List.Forall₂ IncStep a c := by
  intro a b c hab
  induction hab generalizing c with
  | nil =>
    intro hbc
    cases hbc
    exact List.Forall₂.nil
  | cons hxy hres ih =>
    intro hbc
    cases hbc with
    | cons hyz hrest => exact List.Forall₂.cons (incStep_trans hxy hyz) (ih hrest)

/-- The bounded loop relates initial and final inclusion lists pointwise
by `IncStep`. -/
theorem resolveLoop_stepwise (fuelBound : Nat) :
    ∀ (env : DataInclusion.Env) (rr : Finset String) (i : Nat)
      (st : List DataInclusion.Inclusion) (m : List (String × List Val))
      (out : List DataInclusion.Inclusion) (n : Nat),
      200 - i ≤ fuelBound →
      DataInclusion.resolveLoop env rr i st m = .ok (out, n) →
      List.Forall₂ IncStep st out := by
  induction fuelBound with
  | zero =>
    intro env rr i st m out n hfb hok
    unfold DataInclusion.resolveLoop at hok
    by_cases hall : st.all (fun inc => inc.resolved) = true
    · rw [if_pos hall] at hok
      cases hok
      exact (List.forall₂_same).mpr (fun x _ => incStep_refl x)
    · rw [if_neg hall, if_neg (by omega)] at hok
      cases hok
  | succ fb ih =>
    intro env rr i st m out n hfb hok
    unfold DataInclusion.resolveLoop at hok
    by_cases hall : st.all (fun inc => inc.resolved) = true
    · rw [if_pos hall] at hok
      cases hok
      exact (List.forall₂_same).mpr (fun x _ => incStep_refl x)
    · rw [if_neg hall] at hok
      by_cases hlt : i + 1 < 200
      · rw [if_pos hlt] at hok
        simp only [bind, Except.bind] at hok
        cases hbody : DataInclusion.loopBody env rr st m with
        | error msg =>
          simp only [hbody] at hok
          cases hok
        | ok p =>
          obtain ⟨st', m0⟩ := p
          simp only [hbody] at hok
          exact forall₂_trans_incstep
            (loopBody_stepwise env rr st m st' m0 hbody)
            (ih env rr (i + 1) st' m0 out n (by omega) hok)
      · rw [if_neg hlt] at hok
        cases hok

/-- C8: across the resolution engine's fixed-point phase, each
`Inclusion` slot evolves monotonically: its pk set only grows while it is
unresolved, the resolved flag is set monotonically (an unresolved
inclusion is resolved at most once), and from the moment a slot is
resolved it is frozen — neither a single loop pass nor the whole bounded
loop changes it in any way. -/
theorem inclusion_pks_frozen_after_resolve :
    (∀ (env : DataInclusion.Env) (rr : Finset String)
       (incls : List DataInclusion.Inclusion) (m : List (String × List Val))
       (incls' : List DataInclusion.Inclusion) (m' : List (String × List Val)),
      DataInclusion.loopBody env rr incls m = .ok (incls', m') →
      List.Forall₂ IncStep incls incls') ∧
    (∀ (env : DataInclusion.Env) (rr : Finset String) (i : Nat)
       (st : List DataInclusion.Inclusion) (m : List (String × List Val))
       (out : List DataInclusion.Inclusion) (n : Nat),
      DataInclusion.resolveLoop env rr i st m = .ok (out, n) →
      List.Forall₂ IncStep st out) :=
  ⟨fun env rr incls m incls' m' h => loopBody_stepwise env rr incls m incls' m' h,
   fun env rr i st m out n h =>
    resolveLoop_stepwise (200 - i) env rr i st m out n (Nat.le_refl _) h⟩

/-- Witness for C8: one loop pass over a one-element resolved state
leaves it untouched, and the loop exits immediately on it. -/
theorem inclusion_pks_frozen_after_resolve_witness :
    List.Forall₂ IncStep
      [DataInclusion.Inclusion.resolve
        (DataInclusion.Inclusion.init ⟨0, ⟨0, false, none⟩, 0, [["a"]], none⟩) []]
      [DataInclusion.Inclusion.resolve
        (DataInclusion.Inclusion.init ⟨0, ⟨0, false, none⟩, 0, [["a"]], none⟩) []] := by
  have h := inclusion_pks_frozen_after_resolve.1
    ⟨fun _ => 0, fun _ => "m", fun _ _ _ => []⟩ ∅
    [DataInclusion.Inclusion.resolve
      (DataInclusion.Inclusion.init ⟨0, ⟨0, false, none⟩, 0, [["a"]], none⟩) []]
    []
    [DataInclusion.Inclusion.resolve
      (DataInclusion.Inclusion.init ⟨0, ⟨0, false, none⟩, 0, [["a"]], none⟩) []]
    []
    (by simp [DataInclusion.loopBody, bind, Except.bind, pure, Except.pure,
          DataInclusion.Inclusion.resolve, DataInclusion.Inclusion.init,
          DataInclusion.Inclusion.add_objects])
  exact h

/-!  ## C4 — cycle-safe schema walking  -/

/-- Primitive fields contribute nothing to the walk. -/
theorem walkFields_primitive_skip (wenv : DataInclusion.WEnv)
    (env : DataInclusion.Env) (fuel cls : Nat)
    (prims rest : List (String × DataInclusion.WField))
    (hp : ∀ f ∈ prims, f.2 = DataInclusion.WField.primitive) :
    ∀ (dps : Option DataPath) (ips : Option DataInclusion.IncPath)
      (refs : Option DataInclusion.Refs) (oid : Nat),
      DataInclusion.walkFields wenv env fuel cls (prims ++ rest) dps ips refs oid =
        DataInclusion.walkFields wenv env fuel cls rest dps ips refs oid := by
  induction prims with
  | nil => intro dps ips refs oid; rfl
  | cons f fs ih =>
    intro dps ips refs oid
    obtain ⟨name, fld⟩ := f
    have hfld : fld = DataInclusion.WField.primitive :=
      hp (name, fld) (List.mem_cons_self _ _)
    subst hfld
    rw [List.cons_append]
    rw [DataInclusion.walkFields]
    exact ih (fun g hg => hp g (List.mem_cons_of_mem _ hg)) dps ips refs oid

/-- C4: on a schema graph where serializer class `a` declares `b` as the
includable target of field `na` and `b` declares `a` back through field
`nb` (any other fields primitive), the walk terminates for every fuel
budget of at least 3 — the result no longer depends on fuel — because
the second visit of the referrer `(a, na)` recorded for target `b` is
detected as a circular reference and that branch returns no further
definitions.  The result is exactly one top-level `b` inclusion plus the
single chained `a` definition, with no further nesting. -/
theorem determine_terminates_on_mutual_cycle
    (wenv : DataInclusion.WEnv) (env : DataInclusion.Env)
    (a b : Nat) (na nb : String)
    (fidA fidB : Nat) (mA mB : Bool) (qsA qsB : Option Nat)
    (primsA1 primsA2 primsB1 primsB2 : List (String × DataInclusion.WField))
    (hab : a ≠ b)
    (hfa : wenv.wfields a =
      primsA1 ++ (na, DataInclusion.WField.related fidA mA qsA) :: primsA2)
    (hfb : wenv.wfields b =
      primsB1 ++ (nb, DataInclusion.WField.related fidB mB qsB) :: primsB2)
    (hpa1 : ∀ f ∈ primsA1, f.2 = DataInclusion.WField.primitive)
    (hpa2 : ∀ f ∈ primsA2, f.2 = DataInclusion.WField.primitive)
    (hpb1 : ∀ f ∈ primsB1, f.2 = DataInclusion.WField.primitive)
    (hpb2 : ∀ f ∈ primsB2, f.2 = DataInclusion.WField.primitive)
    (hia : wenv.winclusion a na = some b)
    (hib : wenv.winclusion b nb = some a)
    (fuel : Nat) (hfuel : 3 ≤ fuel) (oid0 : Nat) :
    DataInclusion.determine_inclusion_definitions wenv env fuel a none none none oid0 =
      some ([⟨oid0, ⟨fidA, mA, qsA⟩, b, [[na]], none⟩,
             ⟨oid0 + 1, ⟨fidB, mB, qsB⟩, a, [[na, nb]],
              some (DataInclusion.InclusionDefinition.model_key env
                ⟨oid0, ⟨fidA, mA, qsA⟩, b, [[na]], none⟩, [nb])⟩],
            none, oid0 + 2) := by
  obtain ⟨k, rfl⟩ : ∃ k, fuel = k + 3 := ⟨fuel - 3, by omega⟩
  have hba : (b == a) = false := by simp [Ne.symm hab]
  have hbb : (a == b) = false := by simp [hab]
  -- level 3: the revisit of class `a` detects the (a, na) referrer cycle
  have level3 : ∀ (dps : DataPath) (ips : DataInclusion.IncPath) (oid : Nat),
      DataInclusion.determine_inclusion_definitions wenv env (k + 1) a
        (some dps) (some ips)
        (some [(b, [(a, na)]), (a, [(b, nb)])]) oid =
        some ([], some [(b, [(a, na)]), (a, [(b, nb)])], oid) := by
    intro dps ips oid
    rw [DataInclusion.determine_inclusion_definitions]
    rw [hfa, walkFields_primitive_skip wenv env k a primsA1 _ hpa1]
    rw [DataInclusion.walkFields]
    simp only [hia, Option.getD_some]
    rw [if_pos (by simp [List.lookup])]
    have hskip := walkFields_primitive_skip wenv env k a primsA2 [] hpa2
      (some dps) (some ips) (some [(b, [(a, na)]), (a, [(b, nb)])]) oid
    rw [List.append_nil] at hskip
    rw [hskip, DataInclusion.walkFields]
  -- level 2: class `b` records (b, nb) for target `a` and recurses once
  have level2 :
      DataInclusion.determine_inclusion_definitions wenv env (k + 2) b
        (some [na])
        (some (DataInclusion.InclusionDefinition.model_key env
          ⟨oid0, ⟨fidA, mA, qsA⟩, b, [[na]], none⟩, []))
        (some [(b, [(a, na)])]) (oid0 + 1) =
        some ([⟨oid0 + 1, ⟨fidB, mB, qsB⟩, a, [[na, nb]],
              some (DataInclusion.InclusionDefinition.model_key env
                ⟨oid0, ⟨fidA, mA, qsA⟩, b, [[na]], none⟩, [nb])⟩],
          some [(b, [(a, na)]), (a, [(b, nb)])], oid0 + 2) := by
    rw [DataInclusion.determine_inclusion_definitions]
    rw [hfb, walkFields_primitive_skip wenv env (k + 1) b primsB1 _ hpb1]
    rw [DataInclusion.walkFields]
    simp only [hib, Option.getD_some]
    have hlkA : (([(b, [(a, na)])] : DataInclusion.Refs).lookup a) = none := by
      simp [List.lookup, hbb]
    rw [if_neg (by simp [hlkA])]
    have haddr : DataInclusion.addReferrer [(b, [(a, na)])] a (b, nb) =
        [(b, [(a, na)]), (a, [(b, nb)])] := by
      simp [DataInclusion.addReferrer, hlkA]
    rw [haddr]
    simp only [DataInclusion.get_data_path, DataInclusion.get_inclusion_path]
    rw [level3]
    simp only [Option.isSome_some, if_true]
    have hskip := walkFields_primitive_skip wenv env (k + 1) b primsB2 [] hpb2
      (some [na])
      (some (DataInclusion.InclusionDefinition.model_key env
        ⟨oid0, ⟨fidA, mA, qsA⟩, b, [[na]], none⟩, []))
      (some [(b, [(a, na)]), (a, [(b, nb)])]) (oid0 + 1 + 1)
    rw [List.append_nil] at hskip
    rw [hskip, DataInclusion.walkFields]
    simp
  -- level 1: the top-level walk of class `a`
  rw [DataInclusion.determine_inclusion_definitions]
  rw [hfa, walkFields_primitive_skip wenv env (k + 2) a primsA1 _ hpa1]
  rw [DataInclusion.walkFields]
  simp only [hia]
  rw [if_neg (by simp)]
  have haddr : DataInclusion.addReferrer
      ((none : Option DataInclusion.Refs).getD []) b (a, na) = [(b, [(a, na)])] := by
    simp [DataInclusion.addReferrer]
  rw [haddr]
  simp only [DataInclusion.get_data_path, DataInclusion.get_inclusion_path]
  rw [level2]
  simp only [Option.isSome_none, Bool.false_eq_true, if_false]
  have hskip := walkFields_primitive_skip wenv env (k + 2) a primsA2 [] hpa2
    none none none (oid0 + 2)
  rw [List.append_nil] at hskip
  rw [hskip, DataInclusion.walkFields]
  simp

/-- Witness for C4 at a concrete two-class mutual schema graph. -/
theorem determine_terminates_on_mutual_cycle_witness :
    DataInclusion.determine_inclusion_definitions
      ⟨fun cls => if cls = 0 then [("b", DataInclusion.WField.related 10 false none)]
                  else [("a", DataInclusion.WField.related 11 false none)],
       fun cls name => if cls = 0 then (if name = "b" then some 1 else none)
                       else (if name = "a" then some 0 else none)⟩
      ⟨fun _ => 0, fun _ => "m", fun _ _ _ => []⟩
      3 0 none none none 0 =
      some ([⟨0, ⟨10, false, none⟩, 1, [["b"]], none⟩,
             ⟨1, ⟨11, false, none⟩, 0, [["b", "a"]],
              some (DataInclusion.InclusionDefinition.model_key
                ⟨fun _ => 0, fun _ => "m", fun _ _ _ => []⟩
                ⟨0, ⟨10, false, none⟩, 1, [["b"]], none⟩, ["a"])⟩],
            none, 2) := by
  exact determine_terminates_on_mutual_cycle _ _ 0 1 "b" "a" 10 11 false false
    none none [] [] [] [] (by decide) rfl rfl
    (by simp) (by simp) (by simp) (by simp) rfl rfl 3 (by omega) 0

/-!  ## C9 — the request-path walker never emits an object twice  -/

/-- An immediately returning walker call satisfies the invariant. -/
theorem walkInv_trivial (seen : List Core.SeenEntry) :
    WalkInv seen (.ok ([], seen)) := by
  intro entries seen' h
  cases h
  exact ⟨fun p hp => hp, List.nodup_nil, by simp⟩

/-- A failing walker call satisfies the invariant vacuously. -/
theorem walkInv_error (seen : List Core.SeenEntry) (msg : String) :
    WalkInv seen (.error msg) := by
  intro entries seen' h
  cases h

/-- Sequencing two invariant-preserving walker calls preserves the
invariant on the concatenated entries. -/
theorem walkInv_append
    {seen s1 s2 : List Core.SeenEntry} {e1 e2 : List Core.CEntry}
    (h1 : (∀ p ∈ seen, p ∈ s1) ∧ (e1.map entryKey).Nodup ∧
      (∀ p ∈ e1.map entryKey, p ∈ s1 ∧ p ∉ seen))
    (h2 : (∀ p ∈ s1, p ∈ s2) ∧ (e2.map entryKey).Nodup ∧
      (∀ p ∈ e2.map entryKey, p ∈ s2 ∧ p ∉ s1)) :
    (∀ p ∈ seen, p ∈ s2) ∧ ((e1 ++ e2).map entryKey).Nodup ∧
      (∀ p ∈ (e1 ++ e2).map entryKey, p ∈ s2 ∧ p ∉ seen) := by
  obtain ⟨h1s, h1n, h1m⟩ := h1
  obtain ⟨h2s, h2n, h2m⟩ := h2
  refine ⟨fun p hp => h2s p (h1s p hp), ?_, ?_⟩
  · rw [List.map_append]
    refine List.Nodup.append h1n h2n ?_
    intro p hp1 hp2
    exact (h2m p hp2).2 ((h1m p hp1).1)
  · intro p hp
    rw [List.map_append, List.mem_append] at hp
    rcases hp with hp | hp
    · exact ⟨h2s p (h1m p hp).1, (h1m p hp).2⟩
    · exact ⟨(h2m p hp).1, fun hps => (h2m p hp).2 (h1s p hps)⟩

/-- The seen-set invariant holds for every function of the walker, for
every fuel budget. -/
theorem walk_seen_invariant : ∀ fuel : Nat,
    (∀ (cfg : Core.CCfg) (env : Core.CEnv) (path : List String)
       (fs : List (String × Core.CField)) (incl : List (String × String))
       (inst : Option Core.CObj) (seen : List Core.SeenEntry),
      WalkInv seen (Core.instanceInclusions cfg env fuel path fs incl inst seen)) ∧
    (∀ (cfg : Core.CCfg) (env : Core.CEnv) (path : List String) (name : String)
       (fld : Core.CField) (incl : List (String × String))
       (inst : Option Core.CObj) (seen : List Core.SeenEntry),
      WalkInv seen (Core.fieldInclusions cfg env fuel path name fld incl inst seen)) ∧
    (∀ (cfg : Core.CCfg) (env : Core.CEnv) (path : List String) (name : String)
       (fld : Core.CField) (obj : Core.CObj) (serRef : String)
       (seen : List Core.SeenEntry),
      WalkInv seen (Core.relatedFieldInclusions cfg env fuel path name fld obj serRef seen)) ∧
    (∀ (cfg : Core.CCfg) (env : Core.CEnv) (path : List String) (name : String)
       (obj : Core.CObj) (serRef : String) (seen : List Core.SeenEntry),
      WalkInv seen (Core.pkRelatedInclusions cfg env fuel path name obj serRef seen)) ∧
    (∀ (cfg : Core.CCfg) (env : Core.CEnv) (path : List String) (o : Core.CObj)
       (serRef : String) (seen : List Core.SeenEntry),
      WalkInv seen (Core.emitAndRecurse cfg env fuel path o serRef seen)) ∧
    (∀ (cfg : Core.CCfg) (env : Core.CEnv) (path : List String)
       (os : List Core.CObj) (serRef : String) (seen : List Core.SeenEntry),
      WalkInv seen (Core.manyRelatedLoop cfg env fuel path os serRef seen)) ∧
    (∀ (cfg : Core.CCfg) (env : Core.CEnv) (path : List String) (s : Core.CSer)
       (name : String) (obj : Core.CObj) (seen : List Core.SeenEntry),
      WalkInv seen (Core.subSerializerInclusions cfg env fuel path s name obj seen)) ∧
    (∀ (cfg : Core.CCfg) (env : Core.CEnv) (path : List String) (child : Core.CSer)
       (os : List Core.CObj) (seen : List Core.SeenEntry),
      WalkInv seen (Core.listInclusions cfg env fuel path child os seen)) := by
  intro fuel
  induction fuel with
  | zero =>
    refine ⟨fun cfg env path fs incl inst seen => ?_,
            fun cfg env path name fld incl inst seen => ?_,
            fun cfg env path name fld obj serRef seen => ?_,
            fun cfg env path name obj serRef seen => ?_,
            fun cfg env path o serRef seen => ?_,
            fun cfg env path os serRef seen => ?_,
            fun cfg env path s name obj seen => ?_,
            fun cfg env path child os seen => ?_⟩
    · rw [Core.instanceInclusions]; exact walkInv_error _ _
    · rw [Core.fieldInclusions]; exact walkInv_error _ _
    · rw [Core.relatedFieldInclusions]; exact walkInv_error _ _
    · rw [Core.pkRelatedInclusions]; exact walkInv_error _ _
    · rw [Core.emitAndRecurse]; exact walkInv_error _ _
    · rw [Core.manyRelatedLoop]; exact walkInv_error _ _
    · rw [Core.subSerializerInclusions]; exact walkInv_error _ _
    · rw [Core.listInclusions]; exact walkInv_error _ _
  | succ fuel ih =>
    obtain ⟨ihInst, ihField, ihRel, ihPk, ihEmit, ihMany, ihSub, ihList⟩ := ih
    -- emitAndRecurse
    have hEmit : ∀ (cfg : Core.CCfg) (env : Core.CEnv) (path : List String)
        (o : Core.CObj) (serRef : String) (seen : List Core.SeenEntry),
        WalkInv seen (Core.emitAndRecurse cfg env (fuel + 1) path o serRef seen) := by
      intro cfg env path o serRef seen
      rw [Core.emitAndRecurse]
      unfold Core.hasBeenSeen
      by_cases hmem : ((o.label, o.pk) : Core.SeenEntry) ∈ seen
      · rw [if_pos hmem]
        exact walkInv_trivial seen
      · rw [if_neg hmem]
        cases hser : env.resolveSer serRef with
        | listSer child => exact walkInv_error _ _
        | ser fs incl =>
          intro entries seen' h
          simp only [bind, Except.bind] at h
          cases hrec : Core.instanceInclusions cfg env fuel
              (if cfg.nested_inclusions_use_complete_path then path else path.dropLast)
              fs incl (some o) ((o.label, o.pk) :: seen) with
          | error msg =>
            simp only [hrec] at h
            cases h
          | ok p =>
            obtain ⟨there, s2⟩ := p
            simp only [hrec, pure, Except.pure, Except.ok.injEq, Prod.mk.injEq] at h
            obtain ⟨h1, h2⟩ := h
            subst h1
            subst h2
            obtain ⟨hs, hn, hm⟩ := ihInst cfg env
              (if cfg.nested_inclusions_use_complete_path then path else path.dropLast)
              fs incl (some o) ((o.label, o.pk) :: seen) there s2 hrec
            refine ⟨fun p hp => hs p (List.mem_cons_of_mem _ hp), ?_, ?_⟩
            · simp only [List.map_cons]
              refine List.nodup_cons.mpr ⟨?_, hn⟩
              intro hcon
              exact (hm _ hcon).2 (List.mem_cons_self _ _)
            · intro p hp
              simp only [List.map_cons, List.mem_cons] at hp
              rcases hp with rfl | hp
              · exact ⟨hs _ (List.mem_cons_self _ _), hmem⟩
              · exact ⟨(hm p hp).1, fun hps => (hm p hp).2 (List.mem_cons_of_mem _ hps)⟩
    -- manyRelatedLoop
    have hMany : ∀ (cfg : Core.CCfg) (env : Core.CEnv) (path : List String)
        (os : List Core.CObj) (serRef : String) (seen : List Core.SeenEntry),
        WalkInv seen (Core.manyRelatedLoop cfg env (fuel + 1) path os serRef seen) := by
      intro cfg env path os serRef
      induction os with
      | nil =>
        intro seen
        rw [Core.manyRelatedLoop]
        exact walkInv_trivial seen
      | cons o rest ihos =>
        intro seen
        intro entries seen' h
        rw [Core.manyRelatedLoop] at h
        simp only [bind, Except.bind] at h
        cases h1 : Core.emitAndRecurse cfg env fuel path o serRef seen with
        | error msg =>
          simp only [h1] at h
          cases h
        | ok p1 =>
          obtain ⟨e1, s1⟩ := p1
          simp only [h1] at h
          cases h2 : Core.manyRelatedLoop cfg env fuel path rest serRef s1 with
          | error msg =>
            simp only [h2] at h
            cases h
          | ok p2 =>
            obtain ⟨e2, s2⟩ := p2
            simp only [h2, pure, Except.pure, Except.ok.injEq, Prod.mk.injEq] at h
            obtain ⟨h3, h4⟩ := h
            subst h3
            subst h4
            exact walkInv_append (ihEmit cfg env path o serRef seen e1 s1 h1)
              (ihMany cfg env path rest serRef s1 e2 s2 h2)
    -- pkRelatedInclusions
    have hPk : ∀ (cfg : Core.CCfg) (env : Core.CEnv) (path : List String)
        (name : String) (obj : Core.CObj) (serRef : String)
        (seen : List Core.SeenEntry),
        WalkInv seen (Core.pkRelatedInclusions cfg env (fuel + 1) path name obj serRef seen) := by
      intro cfg env path name obj serRef seen
      rw [Core.pkRelatedInclusions]
      split
      · exact walkInv_error _ _
      · exact walkInv_error _ _
      · exact walkInv_trivial _
      · exact walkInv_error _ _
      · split
        · exact walkInv_trivial _
        · exact ihEmit cfg env path _ serRef seen
      · split
        · exact walkInv_trivial _
        · split
          · exact walkInv_trivial _
          · exact ihEmit cfg env path _ serRef seen
    -- relatedFieldInclusions
    have hRel : ∀ (cfg : Core.CCfg) (env : Core.CEnv) (path : List String)
        (name : String) (fld : Core.CField) (obj : Core.CObj) (serRef : String)
        (seen : List Core.SeenEntry),
        WalkInv seen (Core.relatedFieldInclusions cfg env (fuel + 1) path name fld obj serRef seen) := by
      intro cfg env path name fld obj serRef seen
      cases fld with
      | sub s =>
        simp only [Core.relatedFieldInclusions]
        split
        · exact walkInv_trivial _
        · exact walkInv_error _ _
      | pkRel =>
        simp only [Core.relatedFieldInclusions]
        split
        · exact walkInv_trivial _
        · exact ihPk cfg env path name obj serRef seen
      | hyperRel =>
        simp only [Core.relatedFieldInclusions]
        split
        · exact walkInv_trivial _
        · exact ihPk cfg env path name obj serRef seen
      | manyRel =>
        simp only [Core.relatedFieldInclusions]
        split
        · exact walkInv_trivial _
        · split
          · exact ihMany cfg env path _ serRef seen
          · exact walkInv_error _ _
      | other =>
        simp only [Core.relatedFieldInclusions]
        split
        · exact walkInv_trivial _
        · exact walkInv_error _ _
    -- fieldInclusions
    have hField : ∀ (cfg : Core.CCfg) (env : Core.CEnv) (path : List String)
        (name : String) (fld : Core.CField) (incl : List (String × String))
        (inst : Option Core.CObj) (seen : List Core.SeenEntry),
        WalkInv seen (Core.fieldInclusions cfg env (fuel + 1) path name fld incl inst seen) := by
      intro cfg env path name fld incl inst seen
      cases inst with
      | none =>
        simp only [Core.fieldInclusions]
        exact walkInv_trivial _
      | some obj =>
        cases fld with
        | sub s =>
          simp only [Core.fieldInclusions]
          exact ihSub cfg env (path ++ [name]) s name obj seen
        | pkRel =>
          simp only [Core.fieldInclusions]
          split
          · exact walkInv_trivial _
          · exact ihRel cfg env (path ++ [name]) name _ obj _ seen
        | hyperRel =>
          simp only [Core.fieldInclusions]
          split
          · exact walkInv_trivial _
          · exact ihRel cfg env (path ++ [name]) name _ obj _ seen
        | manyRel =>
          simp only [Core.fieldInclusions]
          split
          · exact walkInv_trivial _
          · exact ihRel cfg env (path ++ [name]) name _ obj _ seen
        | other =>
          simp only [Core.fieldInclusions]
          split
          · exact walkInv_trivial _
          · exact ihRel cfg env (path ++ [name]) name _ obj _ seen
    -- instanceInclusions
    have hInst : ∀ (cfg : Core.CCfg) (env : Core.CEnv) (path : List String)
        (fs : List (String × Core.CField)) (incl : List (String × String))
        (inst : Option Core.CObj) (seen : List Core.SeenEntry),
        WalkInv seen (Core.instanceInclusions cfg env (fuel + 1) path fs incl inst seen) := by
      intro cfg env path fs incl inst seen
      cases fs with
      | nil =>
        rw [Core.instanceInclusions]
        exact walkInv_trivial _
      | cons f rest =>
        obtain ⟨name, fld⟩ := f
        intro entries seen' h
        rw [Core.instanceInclusions] at h
        simp only [bind, Except.bind] at h
        cases h1 : Core.fieldInclusions cfg env fuel path name fld incl inst seen with
        | error msg =>
          simp only [h1] at h
          cases h
        | ok p1 =>
          obtain ⟨e1, s1⟩ := p1
          simp only [h1] at h
          cases h2 : Core.instanceInclusions cfg env fuel path rest incl inst s1 with
          | error msg =>
            simp only [h2] at h
            cases h
          | ok p2 =>
            obtain ⟨e2, s2⟩ := p2
            simp only [h2, pure, Except.pure, Except.ok.injEq, Prod.mk.injEq] at h
            obtain ⟨h3, h4⟩ := h
            subst h3
            subst h4
            exact walkInv_append (ihField cfg env path name fld incl inst seen e1 s1 h1)
              (ihInst cfg env path rest incl inst s1 e2 s2 h2)
    -- subSerializerInclusions
    have hSub : ∀ (cfg : Core.CCfg) (env : Core.CEnv) (path : List String)
        (s : Core.CSer) (name : String) (obj : Core.CObj)
        (seen : List Core.SeenEntry),
        WalkInv seen (Core.subSerializerInclusions cfg env (fuel + 1) path s name obj seen) := by
      intro cfg env path s name obj seen
      cases s with
      | listSer child =>
        simp only [Core.subSerializerInclusions]
        split
        · exact walkInv_error _ _
        · exact walkInv_trivial _
        · split
          · exact ihList cfg env path child _ seen
          · exact walkInv_error _ _
      | ser fs incl =>
        simp only [Core.subSerializerInclusions]
        split
        · exact walkInv_error _ _
        · exact walkInv_trivial _
        · split
          · exact ihInst cfg env path fs incl none seen
          · exact ihInst cfg env path fs incl (some _) seen
          · exact walkInv_error _ _
    -- listInclusions
    have hList : ∀ (cfg : Core.CCfg) (env : Core.CEnv) (path : List String)
        (child : Core.CSer) (os : List Core.CObj) (seen : List Core.SeenEntry),
        WalkInv seen (Core.listInclusions cfg env (fuel + 1) path child os seen) := by
      intro cfg env path child os
      induction os with
      | nil =>
        intro seen
        rw [Core.listInclusions]
        exact walkInv_trivial _
      | cons o rest ihos =>
        intro seen
        cases child with
        | listSer c =>
          rw [Core.listInclusions]
          exact walkInv_error _ _
        | ser fs incl =>
          intro entries seen' h
          rw [Core.listInclusions] at h
          simp only [bind, Except.bind] at h
          cases h1 : Core.instanceInclusions cfg env fuel path fs incl (some o) seen with
          | error msg =>
            simp only [h1] at h
            cases h
          | ok p1 =>
            obtain ⟨e1, s1⟩ := p1
            simp only [h1] at h
            cases h2 : Core.listInclusions cfg env fuel path (Core.CSer.ser fs incl) rest s1 with
            | error msg =>
              simp only [h2] at h
              cases h
            | ok p2 =>
              obtain ⟨e2, s2⟩ := p2
              simp only [h2, pure, Except.pure, Except.ok.injEq, Prod.mk.injEq] at h
              obtain ⟨h3, h4⟩ := h
              subst h3
              subst h4
              exact walkInv_append
                (ihInst cfg env path fs incl (some o) seen e1 s1 h1)
                (ihList cfg env path (Core.CSer.ser fs incl) rest s1 e2 s2 h2)
    exact ⟨hInst, hField, hRel, hPk, hEmit, hMany, hSub, hList⟩

/-- C9: in a single run of `inclusions_dict`, every emitted object passes
through the per-run seen-set of `(model label, pk)` pairs, so the emitted
entry stream carries pairwise-distinct entity-reference keys — for each
entity type, no identifier appears twice (the result mapping appends
exactly one rendered item per emitted entry), even when the same object
is reachable via two distinct field chains. -/
theorem inclusions_dict_no_duplicates :
    ∀ (cfg : Core.CCfg) (env : Core.CEnv) (fuel : Nat) (ser : Core.CSer)
      (inst : Core.CInstance) (entries : List Core.CEntry)
      (seen' : List Core.SeenEntry),
      Core.inclusions cfg env fuel ser inst [] = .ok (entries, seen') →
      (entries.map entryKey).Nodup ∧
      (∀ label : String,
        ((entries.filter (fun e => e.1.label == label)).map
          (fun e => e.1.pk)).Nodup) := by
  intro cfg env fuel ser inst entries seen' h
  have hpairs : (entries.map entryKey).Nodup := by
    cases ser with
    | listSer child =>
      cases inst with
      | one o =>
        simp only [Core.inclusions] at h
        cases h
      | many os =>
        simp only [Core.inclusions] at h
        exact ((walk_seen_invariant fuel).2.2.2.2.2.2.2 cfg env [] child os []
          entries seen' h).2.1
    | ser fs incl =>
      cases inst with
      | one o =>
        simp only [Core.inclusions] at h
        exact ((walk_seen_invariant fuel).1 cfg env [] fs incl o []
          entries seen' h).2.1
      | many os =>
        simp only [Core.inclusions] at h
        cases h
  refine ⟨hpairs, fun label => ?_⟩
  have hsub : ((entries.filter (fun e => e.1.label == label)).map entryKey).Sublist
      (entries.map entryKey) :=
    List.Sublist.map entryKey (List.filter_sublist entries)
  have hnd : ((entries.filter (fun e => e.1.label == label)).map entryKey).Nodup :=
    List.Nodup.sublist hsub hpairs
  have hrw : (entries.filter (fun e => e.1.label == label)).map (fun e => e.1.pk) =
      ((entries.filter (fun e => e.1.label == label)).map entryKey).map Prod.snd := by
    simp [List.map_map, entryKey, Function.comp]
  rw [hrw]
  refine List.Nodup.map_on ?_ hnd
  intro x hx y hy hxy
  obtain ⟨e, he, rfl⟩ := List.mem_map.mp hx
  obtain ⟨f, hf, rfl⟩ := List.mem_map.mp hy
  have hex : e.1.label = label := by simpa using (List.mem_filter.mp he).2
  have hfx : f.1.label = label := by simpa using (List.mem_filter.mp hf).2
  simp only [entryKey] at hxy ⊢
  rw [hex, hfx]
  rw [hxy]

/-- Witness for C9 at a concrete one-field walk that emits one related
object. -/
theorem inclusions_dict_no_duplicates_witness :
    ([((Core.CObj.mk "app.Y" (some 2) []), "S")].map entryKey).Nodup ∧
    (∀ label : String,
      (([((Core.CObj.mk "app.Y" (some 2) []), "S")].filter
          (fun e => e.1.label == label)).map (fun e => e.1.pk)).Nodup) :=
  inclusions_dict_no_duplicates
    ⟨none, false⟩
    ⟨fun _ => Core.CSer.ser [] [], fun _ => "m", fun _ _ => Val.vnull⟩
    6
    (Core.CSer.ser [("f", Core.CField.pkRel)] [("f", "S")])
    (Core.CInstance.one (some (Core.CObj.mk "app.X" (some 1)
      [("f", Core.CAttr.aobj (Core.CObj.mk "app.Y" (some 2) []))])))
    [((Core.CObj.mk "app.Y" (some 2) []), "S")]
    [("app.Y", some 2)]
    rfl

/-!  ## C10 — definition merging preserves the data paths exactly  -/

/-- `allPaths` distributes over cons. -/
theorem allPaths_cons (d : DataInclusion.InclusionDefinition)
    (l : List DataInclusion.InclusionDefinition) :
    DataInclusion.allPaths (d :: l) =
      DataInclusion.pathsMultiset d + DataInclusion.allPaths l := rfl

/-- `allPaths` is invariant under permutation. -/
theorem allPaths_perm {l1 l2 : List DataInclusion.InclusionDefinition}
    (h : l1.Perm l2) :
    DataInclusion.allPaths l1 = DataInclusion.allPaths l2 :=
  (h.map _).sum_eq

/-- The flattened data paths of a definition list, as a multiset. -/
theorem coe_flatten_eq_allPaths (ds : List DataInclusion.InclusionDefinition) :
    (((ds.map (fun m => m.data_paths)).flatten : List DataPath) : Multiset DataPath) =
      DataInclusion.allPaths ds := by
  induction ds with
  | nil => rfl
  | cons d rest ih =>
    rw [List.map_cons, List.flatten_cons, ← Multiset.coe_add, ih]
    rfl

/-- Erasing an element that fails the predicate does not change a
filter. -/
theorem filter_erase_of_not_pred {α : Type} [DecidableEq α] (p : α → Bool)
    (l : List α) (a : α) (ha : p a = false) :
    (l.erase a).filter p = l.filter p := by
  induction l with
  | nil => rfl
  | cons x xs ih =>
    by_cases hx : x = a
    · subst hx
      rw [List.erase_cons_head, List.filter_cons, ha]
      simp
    · rw [List.erase_cons_tail (by simp [hx]), List.filter_cons, List.filter_cons]
      cases hpx : p x with
      | true => simp [ih]
      | false => simp [ih]

/-- The matching predicate never selects the processed definition
itself. -/
theorem matchPred_self (env : DataInclusion.Env)
    (d : DataInclusion.InclusionDefinition) :
    DataInclusion.matchPred env d d = false := by
  simp [DataInclusion.matchPred]

/-- The merge loop consumes its inputs exactly: the multiset of all data
paths in the output equals the multiset of all data paths of the (still
unconsumed) inputs. -/
theorem mergeAux_allPaths (env : DataInclusion.Env) :
    ∀ (iter inputs : List DataInclusion.InclusionDefinition) (fresh : Nat),
      inputs.Sublist iter →
      DataInclusion.allPaths (DataInclusion.mergeAux env iter inputs fresh) =
        DataInclusion.allPaths inputs := by
  intro iter
  induction iter with
  | nil =>
    intro inputs fresh hsub
    rw [List.sublist_nil.mp hsub]
    rfl
  | cons d rest ih =>
    intro inputs fresh hsub
    rw [DataInclusion.mergeAux]
    by_cases hd : d ∈ inputs
    · rw [if_pos hd]
      have hsub' : ((inputs.erase d).filter
          (fun e => !(DataInclusion.matchPred env d e))).Sublist rest := by
        refine List.Sublist.trans (List.filter_sublist _) ?_
        have h1 : (inputs.erase d).Sublist ((d :: rest).erase d) :=
          List.Sublist.erase d hsub
        rwa [List.erase_cons_head] at h1
      rw [allPaths_cons, ih _ (fresh + 1) hsub']
      have hperm1 : DataInclusion.allPaths inputs =
          DataInclusion.pathsMultiset d + DataInclusion.allPaths (inputs.erase d) := by
        rw [allPaths_perm (List.perm_cons_erase hd), allPaths_cons]
      have hsplit : DataInclusion.allPaths (inputs.erase d) =
          DataInclusion.allPaths ((inputs.erase d).filter (DataInclusion.matchPred env d)) +
          DataInclusion.allPaths ((inputs.erase d).filter
            (fun e => !(DataInclusion.matchPred env d e))) := by
        rw [← allPaths_perm (List.filter_append_perm (DataInclusion.matchPred env d)
          (inputs.erase d))]
        induction (inputs.erase d).filter (DataInclusion.matchPred env d) with
        | nil =>
          rw [List.nil_append]
          exact (zero_add _).symm
        | cons x xs ihx => rw [List.cons_append, allPaths_cons, allPaths_cons, ihx,
            add_assoc]
      have hmatch : (inputs.erase d).filter (DataInclusion.matchPred env d) =
          inputs.filter (DataInclusion.matchPred env d) :=
        filter_erase_of_not_pred _ inputs d (matchPred_self env d)
      rw [hperm1, hsplit, hmatch]
      have hnew : DataInclusion.pathsMultiset
          ({ oid := fresh, field := d.field, serializer_class := d.serializer_class,
             data_paths := d.data_paths ++
               ((inputs.filter (DataInclusion.matchPred env d)).map
                 (fun m => m.data_paths)).flatten,
             inclusion_path := d.inclusion_path } : DataInclusion.InclusionDefinition) =
          DataInclusion.pathsMultiset d +
            DataInclusion.allPaths (inputs.filter (DataInclusion.matchPred env d)) := by
        show (((d.data_paths ++ ((inputs.filter (DataInclusion.matchPred env d)).map
          (fun m => m.data_paths)).flatten : List DataPath)) : Multiset DataPath) = _
        rw [← Multiset.coe_add, coe_flatten_eq_allPaths]
        rfl
      rw [hnew]
      rw [add_assoc]
    · rw [if_neg hd]
      have hsub' : inputs.Sublist rest := by
        cases hsub with
        | cons _ h => exact h
        | cons₂ h => exact absurd (List.mem_cons_self d _) hd
      exact ih inputs fresh hsub'

/-- Output identities of the merge loop are at least the fresh
counter. -/
theorem mergeAux_oid_ge (env : DataInclusion.Env) :
    ∀ (iter inputs : List DataInclusion.InclusionDefinition) (fresh : Nat)
      (d' : DataInclusion.InclusionDefinition),
      d' ∈ DataInclusion.mergeAux env iter inputs fresh → fresh ≤ d'.oid := by
  intro iter
  induction iter with
  | nil =>
    intro inputs fresh d' hd'
    cases hd'
  | cons d rest ih =>
    intro inputs fresh d' hd'
    rw [DataInclusion.mergeAux] at hd'
    by_cases hd : d ∈ inputs
    · rw [if_pos hd] at hd'
      rcases List.mem_cons.mp hd' with rfl | hmem
      · exact Nat.le_refl _
      · exact Nat.le_of_succ_le (ih _ (fresh + 1) d' hmem)
    · rw [if_neg hd] at hd'
      exact ih inputs fresh d' hd'

/-- Every identity in a list is bounded by `maxOid`. -/
theorem oid_le_maxOid (l : List DataInclusion.InclusionDefinition)
    (d : DataInclusion.InclusionDefinition) (hd : d ∈ l) :
    d.oid ≤ DataInclusion.maxOid l := by
  induction l with
  | nil => cases hd
  | cons x xs ih =>
    rcases List.mem_cons.mp hd with rfl | hmem
    · exact le_max_left _ _
    · exact le_trans (ih hmem) (le_max_right _ _)

/-- C10: `merge_inclusion_definitions` preserves the data paths exactly —
the multiset of all data paths across the output equals the multiset
across the input (no path lost, duplicated or invented) — and the output
consists of freshly constructed definition objects: every output identity
is distinct from every input identity (the pure embedding leaves the
input definitions themselves unchanged by construction). -/
theorem merge_definitions_preserves_paths :
    (∀ (env : DataInclusion.Env) (l : List DataInclusion.InclusionDefinition),
      DataInclusion.allPaths (DataInclusion.merge_inclusion_definitions env l) =
        DataInclusion.allPaths l) ∧
    (∀ (env : DataInclusion.Env) (l : List DataInclusion.InclusionDefinition),
      ∀ d' ∈ DataInclusion.merge_inclusion_definitions env l,
      ∀ d ∈ l, d'.oid ≠ d.oid) := by
  constructor
  · intro env l
    exact mergeAux_allPaths env l l (DataInclusion.maxOid l + 1) (List.Sublist.refl l)
  · intro env l d' hd' d hd
    have h1 : DataInclusion.maxOid l + 1 ≤ d'.oid :=
      mergeAux_oid_ge env l l (DataInclusion.maxOid l + 1) d' hd'
    have h2 : d.oid ≤ DataInclusion.maxOid l := oid_le_maxOid l d hd
    omega

/-- Witness for C10 at a concrete two-definition list. -/
theorem merge_definitions_preserves_paths_witness :
    DataInclusion.allPaths (DataInclusion.merge_inclusion_definitions
      ⟨fun _ => 0, fun _ => "m", fun _ _ _ => []⟩
      [⟨1, ⟨10, false, some 5⟩, 3, [["a"]], none⟩,
       ⟨2, ⟨11, false, some 5⟩, 3, [["b"]], none⟩]) =
      DataInclusion.allPaths
      [⟨1, ⟨10, false, some 5⟩, 3, [["a"]], none⟩,
       ⟨2, ⟨11, false, some 5⟩, 3, [["b"]], none⟩] ∧
    ∀ d' ∈ DataInclusion.merge_inclusion_definitions
      ⟨fun _ => 0, fun _ => "m", fun _ _ _ => []⟩
      [⟨1, ⟨10, false, some 5⟩, 3, [["a"]], none⟩,
       ⟨2, ⟨11, false, some 5⟩, 3, [["b"]], none⟩],
      d'.oid ≠ 1 :=
  ⟨merge_definitions_preserves_paths.1 _ _,
   fun d' hd' => merge_definitions_preserves_paths.2 _ _ d' hd'
     ⟨1, ⟨10, false, some 5⟩, 3, [["a"]], none⟩ (List.mem_cons_self _ _)⟩

/-!  ## C6 — merging is idempotent and order-independent on groupings  -/

/-- `grouping` distributes over cons. -/
theorem grouping_cons (env : DataInclusion.Env)
    (d : DataInclusion.InclusionDefinition)
    (l : List DataInclusion.InclusionDefinition) :
    DataInclusion.grouping env (d :: l) =
      DataInclusion.defTuple env d ::ₘ DataInclusion.grouping env l := rfl

/-- The canonical grouping of the empty list. -/
theorem specGrouping_nil (env : DataInclusion.Env) :
    DataInclusion.specGrouping env [] = 0 := rfl

/-- The canonical grouping is invariant under permutation of the
definition list. -/
theorem specGrouping_perm (env : DataInclusion.Env)
    {l1 l2 : List DataInclusion.InclusionDefinition} (h : l1.Perm l2) :
    DataInclusion.specGrouping env l1 = DataInclusion.specGrouping env l2 := by
  have hk : DataInclusion.noneKeys env l1 = DataInclusion.noneKeys env l2 :=
    List.toFinset_eq_of_perm _ _ (List.Perm.map _ (List.Perm.filter _ h))
  have hs : ∀ k, DataInclusion.noneSum env l1 k = DataInclusion.noneSum env l2 k :=
    fun k => List.Perm.sum_eq
      (List.Perm.map _ (List.Perm.filter _ (List.Perm.filter _ h)))
  unfold DataInclusion.specGrouping
  rw [hk]
  congr 1
  · exact Multiset.map_congr rfl (fun k _ => by rw [hs k])
  · exact Multiset.coe_eq_coe.mpr (List.Perm.map _ (List.Perm.filter _ h))

/-- Characterization of the matching predicate of the merge loop. -/
theorem matchPred_iff (env : DataInclusion.Env)
    (d e : DataInclusion.InclusionDefinition) :
    DataInclusion.matchPred env d e = true ↔
      (e.inclusion_path = none ∧ d.inclusion_path = none ∧
        DataInclusion.mergeKey env e = DataInclusion.mergeKey env d ∧
        e.oid ≠ d.oid) := by
  unfold DataInclusion.matchPred
  rw [Bool.and_eq_true, is_mergeable_with_iff]
  simp [DataInclusion.mergeKey, Prod.ext_iff, and_assoc]

/-- Extracting a definition with an `inclusion_path` from the canonical
grouping: it contributes exactly its own singleton group. -/
theorem specGrouping_erase_some (env : DataInclusion.Env)
    (inputs : List DataInclusion.InclusionDefinition)
    (d : DataInclusion.InclusionDefinition) (p : DataInclusion.IncPath)
    (hd : d ∈ inputs) (hip : d.inclusion_path = some p) :
    DataInclusion.specGrouping env inputs =
      DataInclusion.defTuple env d ::ₘ
        DataInclusion.specGrouping env (inputs.erase d) := by
  have hisNone : d.inclusion_path.isNone = false := by simp [hip]
  have hfilterN : (inputs.erase d).filter (fun e => e.inclusion_path.isNone) =
      inputs.filter (fun e => e.inclusion_path.isNone) :=
    filter_erase_of_not_pred _ inputs d hisNone
  have hk : DataInclusion.noneKeys env (inputs.erase d) =
      DataInclusion.noneKeys env inputs := by
    unfold DataInclusion.noneKeys
    rw [hfilterN]
  have hs : ∀ k, DataInclusion.noneSum env (inputs.erase d) k =
      DataInclusion.noneSum env inputs k := by
    intro k
    unfold DataInclusion.noneSum
    rw [hfilterN]
  have hsome : (inputs.filter (fun e => !e.inclusion_path.isNone)).Perm
      (d :: (inputs.erase d).filter (fun e => !e.inclusion_path.isNone)) := by
    have h1 := List.Perm.filter (fun e => !e.inclusion_path.isNone)
      (List.perm_cons_erase hd)
    rw [List.filter_cons] at h1
    simpa [hisNone] using h1
  unfold DataInclusion.specGrouping
  have hS : ((inputs.filter (fun e => !e.inclusion_path.isNone)).map
        (DataInclusion.defTuple env) : Multiset _) =
      DataInclusion.defTuple env d ::ₘ
        (((inputs.erase d).filter (fun e => !e.inclusion_path.isNone)).map
          (DataInclusion.defTuple env) : Multiset _) :=
    Multiset.coe_eq_coe.mpr (List.Perm.map _ hsome)
  rw [hS, hk]
  have hmap : Multiset.map
      (fun k => (k.1, k.2, (none : Option DataInclusion.IncPath),
        DataInclusion.noneSum env (inputs.erase d) k))
      (DataInclusion.noneKeys env inputs).val =
      Multiset.map
      (fun k => (k.1, k.2, (none : Option DataInclusion.IncPath),
        DataInclusion.noneSum env inputs k))
      (DataInclusion.noneKeys env inputs).val :=
    Multiset.map_congr rfl (fun k _ => by rw [hs k])
  rw [hmap]
  conv_lhs => rw [add_comm]
  rw [Multiset.cons_add]
  rw [add_comm]

/-- Decomposing the combined path multiset of a mergeability class at its
chosen representative. -/
theorem noneSum_at_rep (env : DataInclusion.Env)
    (inputs : List DataInclusion.InclusionDefinition)
    (d : DataInclusion.InclusionDefinition)
    (hd : d ∈ inputs) (hip : d.inclusion_path = none) :
    DataInclusion.noneSum env inputs (DataInclusion.mergeKey env d) =
      DataInclusion.pathsMultiset d +
        DataInclusion.allPaths ((inputs.erase d).filter
          (fun e => e.inclusion_path.isNone &&
            decide (DataInclusion.mergeKey env e = DataInclusion.mergeKey env d))) := by
  unfold DataInclusion.noneSum
  rw [List.filter_filter]
  have hcongr : inputs.filter
      (fun a => decide (DataInclusion.mergeKey env a = DataInclusion.mergeKey env d) &&
        a.inclusion_path.isNone) =
      inputs.filter (fun e => e.inclusion_path.isNone &&
        decide (DataInclusion.mergeKey env e = DataInclusion.mergeKey env d)) :=
    List.filter_congr (fun e _ => by rw [Bool.and_comm])
  rw [hcongr]
  have hperm : (inputs.filter (fun e => e.inclusion_path.isNone &&
      decide (DataInclusion.mergeKey env e = DataInclusion.mergeKey env d))).Perm
      (d :: (inputs.erase d).filter (fun e => e.inclusion_path.isNone &&
        decide (DataInclusion.mergeKey env e = DataInclusion.mergeKey env d))) := by
    have h1 := List.Perm.filter (fun e => e.inclusion_path.isNone &&
      decide (DataInclusion.mergeKey env e = DataInclusion.mergeKey env d))
      (List.perm_cons_erase hd)
    rw [List.filter_cons] at h1
    simpa [hip] using h1
  rw [List.Perm.sum_eq (List.Perm.map _ hperm)]
  rfl


/-- Extracting a whole mergeability class from the canonical grouping:
the class of a path-less definition `d` contributes one group carrying
the class's combined paths, and the remaining grouping is that of the
list with the entire class filtered out. -/
theorem specGrouping_extract_none (env : DataInclusion.Env)
    (inputs : List DataInclusion.InclusionDefinition)
    (d : DataInclusion.InclusionDefinition)
    (hd : d ∈ inputs) (hip : d.inclusion_path = none) :
    DataInclusion.specGrouping env inputs =
      ((DataInclusion.mergeKey env d).1, (DataInclusion.mergeKey env d).2,
        (none : Option DataInclusion.IncPath),
        DataInclusion.noneSum env inputs (DataInclusion.mergeKey env d)) ::ₘ
      DataInclusion.specGrouping env (inputs.filter
        (fun e => !(e.inclusion_path.isNone &&
          decide (DataInclusion.mergeKey env e = DataInclusion.mergeKey env d)))) := by
  have hRN : (inputs.filter
      (fun e => !(e.inclusion_path.isNone &&
        decide (DataInclusion.mergeKey env e = DataInclusion.mergeKey env d)))).filter
        (fun e => e.inclusion_path.isNone) =
      inputs.filter (fun e => e.inclusion_path.isNone &&
        !decide (DataInclusion.mergeKey env e = DataInclusion.mergeKey env d)) := by
    rw [List.filter_filter]
    exact List.filter_congr (fun e _ => by
      cases he : e.inclusion_path.isNone <;> simp [he])
  have hkeys : DataInclusion.noneKeys env (inputs.filter
      (fun e => !(e.inclusion_path.isNone &&
        decide (DataInclusion.mergeKey env e = DataInclusion.mergeKey env d)))) =
      (DataInclusion.noneKeys env inputs).erase (DataInclusion.mergeKey env d) := by
    apply Finset.ext
    intro k'
    unfold DataInclusion.noneKeys
    rw [hRN]
    simp only [List.mem_toFinset, List.mem_map, List.mem_filter, Finset.mem_erase,
      Bool.and_eq_true, Bool.not_eq_true', decide_eq_false_iff_not]
    constructor
    · rintro ⟨e, ⟨heIn, heNone, heNe⟩, rfl⟩
      exact ⟨heNe, e, ⟨heIn, heNone⟩, rfl⟩
    · rintro ⟨hne, e, ⟨heIn, heNone⟩, rfl⟩
      exact ⟨e, ⟨heIn, heNone, hne⟩, rfl⟩
  have hsum : ∀ k', k' ≠ DataInclusion.mergeKey env d →
      DataInclusion.noneSum env (inputs.filter
        (fun e => !(e.inclusion_path.isNone &&
          decide (DataInclusion.mergeKey env e = DataInclusion.mergeKey env d)))) k' =
      DataInclusion.noneSum env inputs k' := by
    intro k' hk'
    unfold DataInclusion.noneSum
    rw [hRN, List.filter_filter, List.filter_filter]
    have hlists : inputs.filter
        (fun a => decide (DataInclusion.mergeKey env a = k') &&
          (a.inclusion_path.isNone &&
            !decide (DataInclusion.mergeKey env a = DataInclusion.mergeKey env d))) =
        inputs.filter (fun a => decide (DataInclusion.mergeKey env a = k') &&
          a.inclusion_path.isNone) := by
      apply List.filter_congr
      intro e _
      by_cases hmk : DataInclusion.mergeKey env e = k'
      · have hkd : decide (DataInclusion.mergeKey env e =
            DataInclusion.mergeKey env d) = false :=
          decide_eq_false (by rw [hmk]; exact hk')
        simp [hmk, hkd, hk']
      · simp [hmk]
    rw [hlists]
  have hsome : (inputs.filter
      (fun e => !(e.inclusion_path.isNone &&
        decide (DataInclusion.mergeKey env e = DataInclusion.mergeKey env d)))).filter
        (fun e => !e.inclusion_path.isNone) =
      inputs.filter (fun e => !e.inclusion_path.isNone) := by
    rw [List.filter_filter]
    apply List.filter_congr
    intro e _
    cases he : e.inclusion_path.isNone <;> simp [he]
  have hkeyMem : DataInclusion.mergeKey env d ∈ DataInclusion.noneKeys env inputs := by
    unfold DataInclusion.noneKeys
    rw [List.mem_toFinset]
    exact List.mem_map_of_mem _ (List.mem_filter.mpr ⟨hd, by simp [hip]⟩)
  have hval : (DataInclusion.noneKeys env inputs).val =
      DataInclusion.mergeKey env d ::ₘ
        ((DataInclusion.noneKeys env inputs).erase
          (DataInclusion.mergeKey env d)).val := by
    rw [Finset.erase_val]
    exact (Multiset.cons_erase (Finset.mem_def.mp hkeyMem)).symm
  unfold DataInclusion.specGrouping
  rw [hval, Multiset.map_cons]
  have htail : Multiset.map
      (fun k => (k.1, k.2, (none : Option DataInclusion.IncPath),
        DataInclusion.noneSum env inputs k))
      ((DataInclusion.noneKeys env inputs).erase
        (DataInclusion.mergeKey env d)).val =
      Multiset.map
      (fun k => (k.1, k.2, (none : Option DataInclusion.IncPath),
        DataInclusion.noneSum env (inputs.filter
          (fun e => !(e.inclusion_path.isNone &&
            decide (DataInclusion.mergeKey env e =
              DataInclusion.mergeKey env d)))) k))
      (DataInclusion.noneKeys env (inputs.filter
        (fun e => !(e.inclusion_path.isNone &&
          decide (DataInclusion.mergeKey env e =
            DataInclusion.mergeKey env d))))).val := by
    rw [hkeys]
    refine Multiset.map_congr rfl ?_
    intro k' hk'
    have hk'mem : k' ∈ (DataInclusion.noneKeys env inputs).erase
        (DataInclusion.mergeKey env d) := hk'
    have hne : k' ≠ DataInclusion.mergeKey env d :=
      (Finset.mem_erase.mp hk'mem).1
    rw [hsum k' hne]
  rw [htail, hsome]
  rw [Multiset.cons_add]


/-- The merge loop computes exactly the canonical grouping of its
unconsumed inputs (for distinct object identities, as Python guarantees
for a list of distinct definition objects). -/
theorem mergeAux_grouping (env : DataInclusion.Env) :
    ∀ (iter inputs : List DataInclusion.InclusionDefinition) (fresh : Nat),
      (DataInclusion.oids iter).Nodup → inputs.Sublist iter →
      DataInclusion.grouping env (DataInclusion.mergeAux env iter inputs fresh) =
        DataInclusion.specGrouping env inputs := by
  intro iter
  induction iter with
  | nil =>
    intro inputs fresh hnd hsub
    rw [List.sublist_nil.mp hsub]
    rfl
  | cons d rest ih =>
    intro inputs fresh hnd hsub
    have hndRest : (DataInclusion.oids rest).Nodup := by
      rw [show DataInclusion.oids (d :: rest) = d.oid :: DataInclusion.oids rest from rfl]
        at hnd
      exact (List.nodup_cons.mp hnd).2
    rw [DataInclusion.mergeAux]
    by_cases hdmem : d ∈ inputs
    · rw [if_pos hdmem]
      have hndInputs : (inputs.map (fun x => x.oid)).Nodup :=
        List.Nodup.sublist (List.Sublist.map _ hsub) hnd
      have hInputsNodup : inputs.Nodup := List.Nodup.of_map _ hndInputs
      have hoidNe : ∀ e ∈ inputs.erase d, e.oid ≠ d.oid := by
        intro e he
        have heIn : e ∈ inputs := List.mem_of_mem_erase he
        have heNe : e ≠ d := ((List.Nodup.mem_erase_iff hInputsNodup).mp he).1
        intro hEq
        exact heNe (List.inj_on_of_nodup_map hndInputs heIn hdmem hEq)
      have hsubErase : (inputs.erase d).Sublist rest := by
        have h1 := List.Sublist.erase d hsub
        rwa [List.erase_cons_head] at h1
      cases hip : d.inclusion_path with
      | some p =>
        have hPfalse : ∀ e, DataInclusion.matchPred env d e = false := by
          intro e
          rw [← Bool.not_eq_true, matchPred_iff]
          rintro ⟨-, h2, -, -⟩
          rw [hip] at h2
          cases h2
        have hmatch : inputs.filter (DataInclusion.matchPred env d) = [] :=
          List.filter_eq_nil_iff.mpr (fun e _ => by simp [hPfalse e])
        have hinputsE : (inputs.erase d).filter
            (fun e => !(DataInclusion.matchPred env d e)) = inputs.erase d :=
          List.filter_eq_self.mpr (fun e _ => by simp [hPfalse e])
        simp only [hmatch, hinputsE, List.map_nil, List.flatten_nil, List.append_nil]
        rw [grouping_cons, ih (inputs.erase d) (fresh + 1) hndRest hsubErase]
        have hdt : DataInclusion.defTuple env
            ({ oid := fresh, field := d.field, serializer_class := d.serializer_class,
               data_paths := d.data_paths, inclusion_path := some p } :
              DataInclusion.InclusionDefinition) = DataInclusion.defTuple env d := by
          unfold DataInclusion.defTuple
          rw [hip]
          rfl
        rw [hdt]
        exact (specGrouping_erase_some env inputs d p hdmem hip).symm
      | none =>
        have hPiff : ∀ e ∈ inputs.erase d,
            DataInclusion.matchPred env d e =
              (e.inclusion_path.isNone &&
                decide (DataInclusion.mergeKey env e = DataInclusion.mergeKey env d)) := by
          intro e he
          by_cases hcp : e.inclusion_path = none ∧
              DataInclusion.mergeKey env e = DataInclusion.mergeKey env d
          · have ht : DataInclusion.matchPred env d e = true :=
              (matchPred_iff env d e).mpr ⟨hcp.1, hip, hcp.2, hoidNe e he⟩
            rw [ht, hcp.1]
            simp [hcp.2]
          · have hf : DataInclusion.matchPred env d e = false := by
              rw [← Bool.not_eq_true, matchPred_iff]
              rintro ⟨h1, -, h3, -⟩
              exact hcp ⟨h1, h3⟩
            rw [hf]
            symm
            rcases not_and_or.mp hcp with hc | hc
            · cases hep : e.inclusion_path with
              | none => exact absurd hep hc
              | some q => simp [hep]
            · simp [hc]
        have hmatchC : inputs.filter (DataInclusion.matchPred env d) =
            (inputs.erase d).filter (fun e => e.inclusion_path.isNone &&
              decide (DataInclusion.mergeKey env e = DataInclusion.mergeKey env d)) :=
          (filter_erase_of_not_pred _ inputs d (matchPred_self env d)).symm.trans
            (List.filter_congr hPiff)
        have hCPd : (fun (e : DataInclusion.InclusionDefinition) =>
            !(e.inclusion_path.isNone &&
              decide (DataInclusion.mergeKey env e = DataInclusion.mergeKey env d))) d
            = false := by
          simp [hip]
        have hinputsC : (inputs.erase d).filter
            (fun e => !(DataInclusion.matchPred env d e)) =
            inputs.filter (fun e => !(e.inclusion_path.isNone &&
              decide (DataInclusion.mergeKey env e = DataInclusion.mergeKey env d))) :=
          (List.filter_congr (fun e he => by rw [hPiff e he])).trans
            (filter_erase_of_not_pred _ inputs d hCPd)
        have hsub' : (inputs.filter (fun e => !(e.inclusion_path.isNone &&
            decide (DataInclusion.mergeKey env e =
              DataInclusion.mergeKey env d)))).Sublist rest := by
          rw [← hinputsC]
          exact List.Sublist.trans (List.filter_sublist _) hsubErase
        rw [hmatchC, hinputsC]
        rw [grouping_cons, ih _ (fresh + 1) hndRest hsub']
        have hpaths : DataInclusion.pathsMultiset
            ({ oid := fresh, field := d.field, serializer_class := d.serializer_class,
               data_paths := d.data_paths ++
                 (((inputs.erase d).filter (fun e => e.inclusion_path.isNone &&
                   decide (DataInclusion.mergeKey env e =
                     DataInclusion.mergeKey env d))).map
                   (fun m => m.data_paths)).flatten,
               inclusion_path := none } : DataInclusion.InclusionDefinition) =
            DataInclusion.noneSum env inputs (DataInclusion.mergeKey env d) := by
          show (((d.data_paths ++
              (((inputs.erase d).filter (fun e => e.inclusion_path.isNone &&
                decide (DataInclusion.mergeKey env e =
                  DataInclusion.mergeKey env d))).map
                (fun m => m.data_paths)).flatten : List DataPath)) : Multiset DataPath) = _
          rw [← Multiset.coe_add, coe_flatten_eq_allPaths]
          exact (noneSum_at_rep env inputs d hdmem hip).symm
        have hhead : DataInclusion.defTuple env
            ({ oid := fresh, field := d.field, serializer_class := d.serializer_class,
               data_paths := d.data_paths ++
                 (((inputs.erase d).filter (fun e => e.inclusion_path.isNone &&
                   decide (DataInclusion.mergeKey env e =
                     DataInclusion.mergeKey env d))).map
                   (fun m => m.data_paths)).flatten,
               inclusion_path := none } : DataInclusion.InclusionDefinition) =
            ((DataInclusion.mergeKey env d).1, (DataInclusion.mergeKey env d).2,
              (none : Option DataInclusion.IncPath),
              DataInclusion.noneSum env inputs (DataInclusion.mergeKey env d)) := by
          unfold DataInclusion.defTuple
          rw [hpaths]
          rfl
        rw [hhead]
        exact (specGrouping_extract_none env inputs d hdmem hip).symm
    · rw [if_neg hdmem]
      have hsub' : inputs.Sublist rest := by
        cases hsub with
        | cons _ h => exact h
        | cons₂ h => exact absurd (List.mem_cons_self d _) hdmem
      exact ih inputs fresh hndRest hsub'

/-- The merge loop assigns fresh, pairwise-distinct object identities to
its outputs. -/
theorem mergeAux_oids_nodup (env : DataInclusion.Env) :
    ∀ (iter inputs : List DataInclusion.InclusionDefinition) (fresh : Nat),
      (DataInclusion.oids (DataInclusion.mergeAux env iter inputs fresh)).Nodup := by
  intro iter
  induction iter with
  | nil =>
    intro inputs fresh
    rw [DataInclusion.mergeAux]
    exact List.nodup_nil
  | cons d rest ih =>
    intro inputs fresh
    rw [DataInclusion.mergeAux]
    by_cases hdmem : d ∈ inputs
    · rw [if_pos hdmem]
      refine List.nodup_cons.mpr ⟨?_, ih _ (fresh + 1)⟩
      intro hmem
      rcases List.mem_map.mp hmem with ⟨d', hd', hoid⟩
      have hoid' : d'.oid = fresh := hoid
      have := mergeAux_oid_ge env rest _ (fresh + 1) d' hd'
      rw [hoid'] at this
      omega
    · rw [if_neg hdmem]
      exact ih inputs fresh

/-- Every path-less output of the merge loop carries the mergeability key
of some path-less unconsumed input. -/
theorem mergeAux_none_key_mem (env : DataInclusion.Env) :
    ∀ (iter inputs : List DataInclusion.InclusionDefinition) (fresh : Nat)
      (d' : DataInclusion.InclusionDefinition),
      d' ∈ DataInclusion.mergeAux env iter inputs fresh →
      d'.inclusion_path = none →
      ∃ e ∈ inputs, e.inclusion_path = none ∧
        DataInclusion.mergeKey env e = DataInclusion.mergeKey env d' := by
  intro iter
  induction iter with
  | nil =>
    intro inputs fresh d' hmem
    rw [DataInclusion.mergeAux] at hmem
    cases hmem
  | cons d rest ih =>
    intro inputs fresh d' hmem hip'
    rw [DataInclusion.mergeAux] at hmem
    by_cases hdmem : d ∈ inputs
    · rw [if_pos hdmem] at hmem
      rcases List.mem_cons.mp hmem with rfl | hrec
      · refine ⟨d, hdmem, ?_, rfl⟩
        exact hip'
      · rcases ih _ (fresh + 1) d' hrec hip' with ⟨e, he, hen, hek⟩
        exact ⟨e, List.mem_of_mem_erase (List.mem_of_mem_filter he), hen, hek⟩
    · rw [if_neg hdmem] at hmem
      exact ih inputs fresh d' hmem hip'

/-- The path-less outputs of the merge loop have pairwise-distinct
mergeability keys (for distinct input object identities). -/
theorem mergeAux_noneKeys_nodup (env : DataInclusion.Env) :
    ∀ (iter inputs : List DataInclusion.InclusionDefinition) (fresh : Nat),
      (DataInclusion.oids iter).Nodup → inputs.Sublist iter →
      (((DataInclusion.mergeAux env iter inputs fresh).filter
          (fun d => d.inclusion_path.isNone)).map
        (DataInclusion.mergeKey env)).Nodup := by
  intro iter
  induction iter with
  | nil =>
    intro inputs fresh hnd hsub
    rw [DataInclusion.mergeAux]
    exact List.nodup_nil
  | cons d rest ih =>
    intro inputs fresh hnd hsub
    have hndRest : (DataInclusion.oids rest).Nodup := by
      rw [show DataInclusion.oids (d :: rest) = d.oid :: DataInclusion.oids rest from rfl]
        at hnd
      exact (List.nodup_cons.mp hnd).2
    rw [DataInclusion.mergeAux]
    by_cases hdmem : d ∈ inputs
    · rw [if_pos hdmem]
      have hndInputs : (inputs.map (fun x => x.oid)).Nodup :=
        List.Nodup.sublist (List.Sublist.map _ hsub) hnd
      have hInputsNodup : inputs.Nodup := List.Nodup.of_map _ hndInputs
      have hoidNe : ∀ e ∈ inputs.erase d, e.oid ≠ d.oid := by
        intro e he
        have heIn : e ∈ inputs := List.mem_of_mem_erase he
        have heNe : e ≠ d := ((List.Nodup.mem_erase_iff hInputsNodup).mp he).1
        intro hEq
        exact heNe (List.inj_on_of_nodup_map hndInputs heIn hdmem hEq)
      have hsubErase : (inputs.erase d).Sublist rest := by
        have h1 := List.Sublist.erase d hsub
        rwa [List.erase_cons_head] at h1
      cases hip : d.inclusion_path with
      | some p =>
        have hPfalse : ∀ e, DataInclusion.matchPred env d e = false := by
          intro e
          rw [← Bool.not_eq_true, matchPred_iff]
          rintro ⟨-, h2, -, -⟩
          rw [hip] at h2
          cases h2
        have hinputsE : (inputs.erase d).filter
            (fun e => !(DataInclusion.matchPred env d e)) = inputs.erase d :=
          List.filter_eq_self.mpr (fun e _ => by simp [hPfalse e])
        rw [hinputsE]
        rw [List.filter_cons, if_neg (by simp)]
        exact ih (inputs.erase d) (fresh + 1) hndRest hsubErase
      | none =>
        have hPiff : ∀ e ∈ inputs.erase d,
            DataInclusion.matchPred env d e =
              (e.inclusion_path.isNone &&
                decide (DataInclusion.mergeKey env e = DataInclusion.mergeKey env d)) := by
          intro e he
          by_cases hcp : e.inclusion_path = none ∧
              DataInclusion.mergeKey env e = DataInclusion.mergeKey env d
          · have ht : DataInclusion.matchPred env d e = true :=
              (matchPred_iff env d e).mpr ⟨hcp.1, hip, hcp.2, hoidNe e he⟩
            rw [ht, hcp.1]
            simp [hcp.2]
          · have hf : DataInclusion.matchPred env d e = false := by
              rw [← Bool.not_eq_true, matchPred_iff]
              rintro ⟨h1, -, h3, -⟩
              exact hcp ⟨h1, h3⟩
            rw [hf]
            symm
            rcases not_and_or.mp hcp with hc | hc
            · cases hep : e.inclusion_path with
              | none => exact absurd hep hc
              | some q => simp [hep]
            · simp [hc]
        have hinputsC : (inputs.erase d).filter
            (fun e => !(DataInclusion.matchPred env d e)) =
            (inputs.erase d).filter (fun e => !(e.inclusion_path.isNone &&
              decide (DataInclusion.mergeKey env e = DataInclusion.mergeKey env d))) :=
          List.filter_congr (fun e he => by rw [hPiff e he])
        rw [hinputsC]
        rw [List.filter_cons, if_pos (by simp)]
        rw [List.map_cons]
        refine List.nodup_cons.mpr ⟨?_, ?_⟩
        · intro hmem
          rcases List.mem_map.mp hmem with ⟨d2, hd2, hkey⟩
          have hd2rec : d2 ∈ DataInclusion.mergeAux env rest
              ((inputs.erase d).filter (fun e => !(e.inclusion_path.isNone &&
                decide (DataInclusion.mergeKey env e =
                  DataInclusion.mergeKey env d)))) (fresh + 1) :=
            List.mem_of_mem_filter hd2
          have hd2none : d2.inclusion_path = none := by
            have := List.of_mem_filter hd2
            simpa using this
          rcases mergeAux_none_key_mem env rest _ (fresh + 1) d2 hd2rec hd2none
            with ⟨e, he, hen, hek⟩
          have heNotClass := List.of_mem_filter he
          have hkd : DataInclusion.mergeKey env e = DataInclusion.mergeKey env d := by
            rw [hek, hkey]
            rfl
          simp [hen, hkd] at heNotClass
        · exact ih _ (fresh + 1) hndRest (by
            exact List.Sublist.trans (List.filter_sublist _) hsubErase)
    · rw [if_neg hdmem]
      have hsub' : inputs.Sublist rest := by
        cases hsub with
        | cons _ h => exact h
        | cons₂ h => exact absurd (List.mem_cons_self d _) hdmem
      exact ih inputs fresh hndRest hsub'

/-- When the path-less definitions of a list already have pairwise
distinct mergeability keys, the canonical grouping is just the list's own
grouping: every mergeability class is a singleton. -/
theorem specGrouping_eq_grouping (env : DataInclusion.Env) :
    ∀ (m : List DataInclusion.InclusionDefinition),
      ((m.filter (fun d => d.inclusion_path.isNone)).map
        (DataInclusion.mergeKey env)).Nodup →
      DataInclusion.specGrouping env m = DataInclusion.grouping env m := by
  intro m
  induction m with
  | nil =>
    intro _
    rfl
  | cons x t ih =>
    intro hnd
    cases hip : x.inclusion_path with
    | some p =>
      have hfilt : (x :: t).filter (fun d => d.inclusion_path.isNone) =
          t.filter (fun d => d.inclusion_path.isNone) := by
        rw [List.filter_cons, if_neg (by simp [hip])]
      rw [hfilt] at hnd
      rw [specGrouping_erase_some env (x :: t) x p (List.mem_cons_self x t) hip,
        List.erase_cons_head, ih hnd, grouping_cons]
    | none =>
      have hfilt : (x :: t).filter (fun d => d.inclusion_path.isNone) =
          x :: t.filter (fun d => d.inclusion_path.isNone) := by
        rw [List.filter_cons, if_pos (by simp [hip])]
      rw [hfilt, List.map_cons] at hnd
      have hnot := (List.nodup_cons.mp hnd).1
      have htail := (List.nodup_cons.mp hnd).2
      have hclassNil : t.filter (fun e => e.inclusion_path.isNone &&
          decide (DataInclusion.mergeKey env e = DataInclusion.mergeKey env x)) = [] := by
        rw [List.filter_eq_nil_iff]
        intro e he hcl
        rw [Bool.and_eq_true, decide_eq_true_eq] at hcl
        exact hnot (List.mem_map.mpr ⟨e, List.mem_filter.mpr ⟨he, hcl.1⟩, hcl.2⟩)
      have hsum : DataInclusion.noneSum env (x :: t) (DataInclusion.mergeKey env x) =
          DataInclusion.pathsMultiset x := by
        rw [noneSum_at_rep env (x :: t) x (List.mem_cons_self x t) hip,
          List.erase_cons_head, hclassNil]
        rw [show DataInclusion.allPaths [] = 0 from rfl, add_zero]
      have hrest : (x :: t).filter (fun e => !(e.inclusion_path.isNone &&
          decide (DataInclusion.mergeKey env e = DataInclusion.mergeKey env x))) = t := by
        rw [List.filter_cons, if_neg (by simp [hip])]
        rw [List.filter_eq_self]
        intro e he
        cases hen : e.inclusion_path with
        | some q => simp [hen]
        | none =>
          have hke : ¬ (DataInclusion.mergeKey env e = DataInclusion.mergeKey env x) :=
            fun hcl => hnot (List.mem_map.mpr
              ⟨e, List.mem_filter.mpr ⟨he, by simp [hen]⟩, hcl⟩)
          simp [hen, hke]
      have hdt : DataInclusion.defTuple env x =
          ((DataInclusion.mergeKey env x).1, (DataInclusion.mergeKey env x).2,
            (none : Option DataInclusion.IncPath), DataInclusion.pathsMultiset x) := by
        unfold DataInclusion.defTuple
        rw [hip]
        rfl
      rw [specGrouping_extract_none env (x :: t) x (List.mem_cons_self x t) hip]
      rw [hrest, ih htail, hsum, grouping_cons, hdt]

/-- C6: definition merging is idempotent and order-independent with
respect to the final grouping: for every list of (distinct)
InclusionDefinition objects, merging the output of
merge_inclusion_definitions again yields the same grouping as merging
once, and merging any permutation of the input yields the same grouping
as merging the original list. -/
theorem merge_definitions_idempotent_order_independent
    (env : DataInclusion.Env)
    (l l' : List DataInclusion.InclusionDefinition)
    (hnd : (DataInclusion.oids l).Nodup) (hperm : l.Perm l') :
    DataInclusion.grouping env (DataInclusion.merge_inclusion_definitions env
        (DataInclusion.merge_inclusion_definitions env l)) =
      DataInclusion.grouping env (DataInclusion.merge_inclusion_definitions env l) ∧
    DataInclusion.grouping env (DataInclusion.merge_inclusion_definitions env l') =
      DataInclusion.grouping env (DataInclusion.merge_inclusion_definitions env l) := by
  unfold DataInclusion.merge_inclusion_definitions
  constructor
  · rw [mergeAux_grouping env _ _ _
      (mergeAux_oids_nodup env l l (DataInclusion.maxOid l + 1)) (List.Sublist.refl _)]
    exact specGrouping_eq_grouping env _
      (mergeAux_noneKeys_nodup env l l (DataInclusion.maxOid l + 1) hnd
        (List.Sublist.refl l))
  · have hnd' : (DataInclusion.oids l').Nodup := by
      have hp : (DataInclusion.oids l).Perm (DataInclusion.oids l') :=
        List.Perm.map (fun (d : DataInclusion.InclusionDefinition) => d.oid) hperm
      exact hp.nodup_iff.mp hnd
    rw [mergeAux_grouping env l' l' _ hnd' (List.Sublist.refl l'),
      mergeAux_grouping env l l _ hnd (List.Sublist.refl l)]
    exact specGrouping_perm env hperm.symm

/-- Witness for C6 at a concrete two-definition list and its swap. -/
theorem merge_definitions_idempotent_order_independent_witness :
    (DataInclusion.oids
        [(⟨1, ⟨10, false, some 5⟩, 3, [["a"]], none⟩ : DataInclusion.InclusionDefinition),
         ⟨2, ⟨11, false, some 5⟩, 3, [["b"]], none⟩]).Nodup ∧
    ([(⟨1, ⟨10, false, some 5⟩, 3, [["a"]], none⟩ : DataInclusion.InclusionDefinition),
      ⟨2, ⟨11, false, some 5⟩, 3, [["b"]], none⟩]).Perm
      [⟨2, ⟨11, false, some 5⟩, 3, [["b"]], none⟩,
       ⟨1, ⟨10, false, some 5⟩, 3, [["a"]], none⟩] ∧
    (DataInclusion.grouping ⟨fun _ => 0, fun _ => "m", fun _ _ _ => []⟩
        (DataInclusion.merge_inclusion_definitions
          ⟨fun _ => 0, fun _ => "m", fun _ _ _ => []⟩
          (DataInclusion.merge_inclusion_definitions
            ⟨fun _ => 0, fun _ => "m", fun _ _ _ => []⟩
            [⟨1, ⟨10, false, some 5⟩, 3, [["a"]], none⟩,
             ⟨2, ⟨11, false, some 5⟩, 3, [["b"]], none⟩])) =
      DataInclusion.grouping ⟨fun _ => 0, fun _ => "m", fun _ _ _ => []⟩
        (DataInclusion.merge_inclusion_definitions
          ⟨fun _ => 0, fun _ => "m", fun _ _ _ => []⟩
          [⟨1, ⟨10, false, some 5⟩, 3, [["a"]], none⟩,
           ⟨2, ⟨11, false, some 5⟩, 3, [["b"]], none⟩]) ∧
     DataInclusion.grouping ⟨fun _ => 0, fun _ => "m", fun _ _ _ => []⟩
        (DataInclusion.merge_inclusion_definitions
          ⟨fun _ => 0, fun _ => "m", fun _ _ _ => []⟩
          [⟨2, ⟨11, false, some 5⟩, 3, [["b"]], none⟩,
           ⟨1, ⟨10, false, some 5⟩, 3, [["a"]], none⟩]) =
      DataInclusion.grouping ⟨fun _ => 0, fun _ => "m", fun _ _ _ => []⟩
        (DataInclusion.merge_inclusion_definitions
          ⟨fun _ => 0, fun _ => "m", fun _ _ _ => []⟩
          [⟨1, ⟨10, false, some 5⟩, 3, [["a"]], none⟩,
           ⟨2, ⟨11, false, some 5⟩, 3, [["b"]], none⟩])) :=
  ⟨by decide, by decide,
    merge_definitions_idempotent_order_independent
      ⟨fun _ => 0, fun _ => "m", fun _ _ _ => []⟩
      [⟨1, ⟨10, false, some 5⟩, 3, [["a"]], none⟩,
       ⟨2, ⟨11, false, some 5⟩, 3, [["b"]], none⟩]
      [⟨2, ⟨11, false, some 5⟩, 3, [["b"]], none⟩,
       ⟨1, ⟨10, false, some 5⟩, 3, [["a"]], none⟩]
      (by decide) (by decide)⟩
